import Mathlib

/-!
Verification of the document-page detection and rectification pipeline of the
videoscan repository (src/lib/videoProcessingMultiFrame.ts together with the
pageDetection module concatenated into it, src/unnamed/part_006 = the
multi-frame merger, src/unnamed/part_017 = the video frame extractor, and
src/services/scanService.ts).

Pixel buffers (`ImageData`) are modelled as a width, a height and a total
function from buffer index to channel value; JavaScript number arithmetic is
modelled by exact rational arithmetic.  Where the source compares square roots
of rationals (`Math.sqrt`), the model compares the squared quantities, which
is equivalent because squaring is monotone on nonnegative reals; each such
spot is noted next to its definition.
-/

namespace VideoScan

/-- A 2-D point with rational (JS floating point) coordinates, mirroring the
`Point` interface of the source. -/
structure Point where
  x : ℚ
  y : ℚ
  deriving DecidableEq, Repr

/-- An RGBA raster, mirroring `ImageData`: `data i` is the byte at buffer
index `i` (reads past the buffer, which do not occur on the paths modelled
here, return 0). -/
structure Image where
  width : ℕ
  height : ℕ
  data : ℕ → ℕ

instance : Inhabited Image := ⟨⟨0, 0, fun _ => 0⟩⟩

instance : Inhabited Point := ⟨⟨0, 0⟩⟩

/-- A detection result for one frame, mirroring the `DetectedPage` interface. -/
structure DetectedPage where
  corners : List Point
  confidence : ℚ
  frameIndex : ℕ
  timestamp : ℚ
  qualityScore : ℚ
  deriving DecidableEq, Repr

/-- One motion sample, mirroring the `MotionData` interface. -/
structure MotionData where
  motionScore : ℚ
  frameIndex : ℕ
  timestamp : ℚ
  deriving DecidableEq, Repr

/-- Caller-supplied detection options, mirroring `PageDetectionOptions`
(every field optional). -/
structure PageDetectionOptions where
  minArea : Option ℚ := none
  maxSkewAngle : Option ℚ := none
  stabilityThreshold : Option ℚ := none
  stabilityDuration : Option ℚ := none
  motionThreshold : Option ℚ := none
  deriving DecidableEq, Repr

/-- Options after the `{ ...DEFAULT_OPTIONS, ...options }` merge. -/
structure ResolvedOptions where
  minArea : ℚ
  maxSkewAngle : ℚ
  stabilityThreshold : ℚ
  stabilityDuration : ℚ
  motionThreshold : ℚ
  deriving DecidableEq, Repr

/-- `DEFAULT_OPTIONS` of the source: minArea 0.2, maxSkewAngle 30,
stabilityThreshold 10, stabilityDuration 300, motionThreshold 0.15. -/
def DEFAULT_OPTIONS : ResolvedOptions :=
  { minArea := 1/5, maxSkewAngle := 30, stabilityThreshold := 10
    stabilityDuration := 300, motionThreshold := 3/20 }

/-- The `{ ...DEFAULT_OPTIONS, ...options }` spread merge. -/
def resolveOptions (o : PageDetectionOptions) : ResolvedOptions :=
  { minArea := o.minArea.getD DEFAULT_OPTIONS.minArea
    maxSkewAngle := o.maxSkewAngle.getD DEFAULT_OPTIONS.maxSkewAngle
    stabilityThreshold := o.stabilityThreshold.getD DEFAULT_OPTIONS.stabilityThreshold
    stabilityDuration := o.stabilityDuration.getD DEFAULT_OPTIONS.stabilityDuration
    motionThreshold := o.motionThreshold.getD DEFAULT_OPTIONS.motionThreshold }

/-- `Math.max` on rationals, written so that it reduces by `decide`. -/
def ratMax (a b : ℚ) : ℚ := if a ≤ b then b else a

/-- `Math.min` on rationals, written so that it reduces by `decide`. -/
def ratMin (a b : ℚ) : ℚ := if a ≤ b then a else b

/-! ## Multi-frame merger (src/unnamed/part_006) -/

/-- A group of frames of the same page, mirroring the `FrameGroup` interface. -/
structure FrameGroup where
  pageNumber : ℤ
  frames : List Image
  corners : List (List Point)
  qualityScores : List ℚ
  timestamps : List ℚ

/-- The `metrics` record of a `MergeResult`. -/
structure MergeMetrics where
  poorRegions : ℕ
  totalRegions : ℕ
  alignmentSuccess : Bool
  deriving DecidableEq, Repr

/-- Result of `mergeFrames`, mirroring the `MergeResult` interface. -/
structure MergeResult where
  imageData : Image
  metrics : MergeMetrics

/-- `mergeFrames` (part_006 lines 88-210).  The zero-frame branch throws
`'No frames to merge'` (modelled as `Except.error`) and the single-frame
branch short-circuits to the first frame with `alignmentSuccess = false`.
The remaining multi-frame path (grid-size auto-selection, alignment,
per-cell quality compositing, seam smoothing) is taken abstractly as the
parameter `mergeMulti`; the two branches under verification never reach it,
and the theorems below hold for every choice of `mergeMulti`. -/
def mergeFrames (mergeMulti : FrameGroup → ℕ → Bool → MergeResult)
    (frameGroup : FrameGroup) (gridSize : ℕ := 8) (enableAlignment : Bool := false) :
    Except String MergeResult :=
  if frameGroup.frames.length = 0 then
    .error "No frames to merge"
  else if frameGroup.frames.length = 1 then
    .ok { imageData := frameGroup.frames.headI
          metrics := { poorRegions := 0, totalRegions := 1, alignmentSuccess := false } }
  else
    .ok (mergeMulti frameGroup gridSize enableAlignment)

/-! ## Motion detection and the stability tracker
(pageDetection module, lines 1598-1726 of videoProcessingMultiFrame.ts) -/

/-- `detectMotion` (lines 1598-1623): sample every 10th pixel (stride 40 through
the RGBA buffer), count samples whose summed RGB absolute difference exceeds
`threshold * 3`, normalize by total pixel count (rescaled by the stride)
and clamp to 1.  A missing previous frame yields motion 0. -/
def detectMotion (currentFrame : Image) (previousFrame : Option Image)
    (threshold : ℚ := 30) : ℚ :=
  match previousFrame with
  | none => 0
  | some prev =>
    let len := currentFrame.width * currentFrame.height * 4
    let sampleIdxs := (List.range ((len + 39) / 40)).map (fun k => 40 * k)
    let changedPixels := sampleIdxs.countP (fun i =>
      let diff : ℤ :=
        |(currentFrame.data i : ℤ) - (prev.data i : ℤ)| +
        |(currentFrame.data (i + 1) : ℤ) - (prev.data (i + 1) : ℤ)| +
        |(currentFrame.data (i + 2) : ℤ) - (prev.data (i + 2) : ℤ)|
      decide ((diff : ℚ) > threshold * 3))
    ratMin 1 ((changedPixels * 10 : ℚ) / (currentFrame.width * currentFrame.height))

/-- The private state of a `StabilityTracker` instance: `history` and
`motionHistory` (both bounded by `maxHistory = 10`), the merged `options`,
and the retained `previousFrame`. -/
structure TrackerState where
  history : List DetectedPage
  motionHistory : List MotionData
  options : ResolvedOptions
  previousFrame : Option Image

/-- The fresh state built by the `StabilityTracker` constructor. -/
def TrackerState.mk0 (options : PageDetectionOptions) : TrackerState :=
  { history := [], motionHistory := [], options := resolveOptions options
    previousFrame := none }

/-- `StabilityTracker.addDetection` (lines 1636-1674).  `now` stands for the
wall clock `Date.now()` read during the call. -/
def TrackerState.addDetection (s : TrackerState) (detection : Option DetectedPage)
    (currentFrame : Option Image) (now : ℚ) : TrackerState :=
  let s1 : TrackerState :=
    match currentFrame, s.previousFrame with
    | some f, some pf =>
      let motionScore := detectMotion f (some pf) 30
      let mh : List MotionData := s.motionHistory ++
        [{ motionScore := motionScore
           frameIndex := (detection.map (·.frameIndex)).getD 0
           timestamp := now }]
      { s with motionHistory := if mh.length > 10 then mh.tail else mh }
    | _, _ => s
  let s2 :=
    match currentFrame with
    | some f => { s1 with previousFrame := some f }
    | none => s1
  match detection with
  | some d =>
    let h := s2.history ++ [d]
    { s2 with history := if h.length > 10 then h.tail else h }
  | none =>
    match s2.history.getLast? with
    | some last =>
      if now - last.timestamp > 1000 then { s2 with history := [] } else s2
    | none => s2

/-- Does `Math.sqrt ((q.x-p.x)^2+(q.y-p.y)^2) > r` hold?  Equivalent to the
source's `distance(p, q) > r` because the square root is nonnegative and
squaring is monotone on nonnegative rationals. -/
def distGt (p q : Point) (r : ℚ) : Bool :=
  decide (r < 0 ∨ (q.x - p.x) ^ 2 + (q.y - p.y) ^ 2 > r ^ 2)

/-- `corners[j]` with the source's 4-corner shape; a missing entry reads as
the origin (detections produced by `detectPage` always carry 4 corners). -/
def cornerAt (d : DetectedPage) (j : ℕ) : Point :=
  d.corners.getD j ⟨0, 0⟩

/-- `this.options.motionThreshold || 0.15` (line 1688): the JS `||` falls
back to 0.15 when the stored threshold is 0. -/
def effectiveMotionThreshold (s : TrackerState) : ℚ :=
  if s.options.motionThreshold = 0 then 3/20 else s.options.motionThreshold

/-- The mean motion score over `motionHistory.slice(-2)` (lines 1684-1685). -/
def recentMotionAvg (s : TrackerState) : ℚ :=
  let recentMotion := s.motionHistory.drop (s.motionHistory.length - 2)
  ((recentMotion.map (fun m => m.motionScore)).sum) / recentMotion.length

/-- The corner check of `isStable` (lines 1699-1707): all 4 corresponding
corners within `stabilityThreshold * 2`. -/
def cornersStable (first current : DetectedPage) (stabilityThreshold : ℚ) :
    Bool :=
  (List.range 4).all (fun j =>
    ! distGt (cornerAt first j) (cornerAt current j) (stabilityThreshold * 2))

/-- `StabilityTracker.isStable` (lines 1676-1710): needs at least 2 detections;
if at least 2 motion samples exist, the mean of the last 2 motion scores must
not exceed `this.options.motionThreshold || 0.15` (note the JS `||`: an
explicit 0 falls back to 0.15); finally each of the 4 corners of the last two
detections must not differ by more than `stabilityThreshold * 2`. -/
def TrackerState.isStable (s : TrackerState) : Bool :=
  if s.history.length < 2 then false
  else if 2 ≤ s.motionHistory.length ∧ recentMotionAvg s > effectiveMotionThreshold s
  then false
  else
    match s.history.drop (s.history.length - 2) with
    | [] => true
    | first :: rest =>
      rest.all (fun current =>
        cornersStable first current s.options.stabilityThreshold)

/-- `StabilityTracker.getStableDetection` (lines 1712-1719). -/
def TrackerState.getStableDetection (s : TrackerState) : Option DetectedPage :=
  if ¬ s.isStable ∨ s.history.length = 0 then none
  else s.history.getLast?

/-- `StabilityTracker.reset` (lines 1721-1726): clears both histories and
keeps `previousFrame` ("Keep previousFrame for continuous motion detection"). -/
def TrackerState.reset (s : TrackerState) : TrackerState :=
  { s with history := [], motionHistory := [] }

/-! ## Page detection geometry (pageDetection module,
lines 1088-1588 of videoProcessingMultiFrame.ts) -/

/-- Integer pixel coordinates `(x, y)` as pushed by the contour tracer. -/
abbrev Pix := ℕ × ℕ

/-- `toGrayscale` (lines 1121-1136): per pixel `Math.round(0.299R+0.587G+0.114B)`
which, in exact arithmetic on byte inputs, is `(299R+587G+114B+500)/1000`
(integer division). -/
def toGrayscale (img : Image) : ℕ → ℕ := fun p =>
  (299 * img.data (4 * p) + 587 * img.data (4 * p + 1) +
    114 * img.data (4 * p + 2) + 500) / 1000

/-- Binary search step for the integer square root: maintains
`lo² ≤ s < hi²` and `lo < hi`, halving the interval while fuel lasts. -/
def sqrtGo (s : ℕ) : ℕ → ℕ → ℕ → ℕ
  | 0, lo, _ => lo
  | fuel + 1, lo, hi =>
    if hi ≤ lo + 1 then lo
    else
      let m := (lo + hi) / 2
      if m * m ≤ s then sqrtGo s fuel m hi else sqrtGo s fuel lo m

/-- `⌊√s⌋` by binary search (`intSqrt_le_and_lt` below proves the defining
bracketing); written without well-founded recursion so that it evaluates
inside `decide`. -/
def intSqrt (s : ℕ) : ℕ := sqrtGo s (s + 1) 0 (s + 1)

/-- Nearest integer to `√s` for a natural `s`.  A tie `√s = k + 1/2` would
require `s = k² + k + 1/4`, impossible for an integer, so the nearest integer
is well defined and equals `k = ⌊√s⌋` exactly when `s ≤ k² + k`. -/
def natSqrtRound (s : ℕ) : ℕ :=
  let k := intSqrt s
  if s ≤ k * k + k then k else k + 1

/-- The Sobel magnitude stored at interior pixel `(x, y)` by `detectEdges`
(lines 1139-1181).  The source computes `min(255, √(gx²+gy²))` and stores it
in a `Uint8ClampedArray`, which rounds to the nearest integer; on integer
`gx²+gy²` this equals `min 255 (natSqrtRound (gx²+gy²))`. -/
def edgeMagnitude (img : Image) (x y : ℕ) : ℕ :=
  let g := fun (xx yy : ℕ) => (toGrayscale img (yy * img.width + xx) : ℤ)
  let gx := -g (x-1) (y-1) + g (x+1) (y-1) - 2 * g (x-1) y + 2 * g (x+1) y
            - g (x-1) (y+1) + g (x+1) (y+1)
  let gy := -g (x-1) (y-1) - 2 * g x (y-1) - g (x+1) (y-1)
            + g (x-1) (y+1) + 2 * g x (y+1) + g (x+1) (y+1)
  min 255 (natSqrtRound (gx * gx + gy * gy).toNat)

/-- `detectEdges` (lines 1139-1181): a same-size RGBA image whose interior
pixels carry the Sobel magnitude in R, G and B and 255 in alpha, with the
1-pixel border (and the rest of the fresh buffer) left at zero. -/
def detectEdges (img : Image) : Image :=
  { width := img.width, height := img.height
    data := fun i =>
      let p := i / 4
      let c := i % 4
      let x := p % img.width
      let y := p / img.width
      if i < img.width * img.height * 4 ∧
          1 ≤ x ∧ x + 1 < img.width ∧ 1 ≤ y ∧ y + 1 < img.height then
        if c = 3 then 255 else edgeMagnitude img x y
      else 0 }

/-- `calculateAdaptiveThreshold` (lines 1184-1210): build the luminance
histogram of the argument image, find the first intensity `i` whose cumulative
share reaches the 85th percentile, and return `max(30, min(80, i * 0.5))`
(default 30 when the scan never fires).  The cumulative histogram sum after
bucket `i` equals the number of pixels whose gray value is `≤ i`, which is how
the cumulative distribution is expressed here; `sum / total ≥ 0.85` on a
nonempty image is `85 * total ≤ 100 * sum` exactly. -/
def thresholdScanHit (imageData : Image) : Option ℕ :=
  let gray := toGrayscale imageData
  let total := imageData.width * imageData.height
  (List.range 256).find? (fun i =>
    decide (total ≠ 0) &&
    decide (85 * total ≤ 100 * (List.range total).countP (fun p => gray p ≤ i)))

/-- The scale-and-clamp of the found percentile level (line 1203), with the
default 30 when the scan never fires. -/
def calculateAdaptiveThreshold (imageData : Image) : ℚ :=
  match thresholdScanHit imageData with
  | some i => ratMax 30 (ratMin 80 ((i : ℚ) / 2))
  | none => 30

/-- Is `(x, y)` inside the image? -/
def validPix (img : Image) (p : Pix) : Prop :=
  p.1 < img.width ∧ p.2 < img.height

instance (img : Image) (p : Pix) : Decidable (validPix img p) :=
  inferInstanceAs (Decidable (_ ∧ _))

/-- The `isEdge` helper of `findContours` (lines 1223-1227): in bounds and
edge-map R channel strictly above the threshold. -/
def isEdgeAt (img : Image) (t : ℚ) (p : Pix) : Bool :=
  decide (validPix img p) &&
    decide ((img.data ((p.2 * img.width + p.1) * 4) : ℚ) > t)

/-- The in-bounds 8-connected neighbours of `p`, in the `dy`-outer `dx`-inner
order in which `traceContour` pushes them (lines 1245-1257). -/
def pixelNeighbors (img : Image) (p : Pix) : List Pix :=
  ([-1, 0, 1] : List ℤ).flatMap fun dy =>
    ([-1, 0, 1] : List ℤ).flatMap fun dx =>
      if dx = 0 ∧ dy = 0 then []
      else
        let nx := (p.1 : ℤ) + dx
        let ny := (p.2 : ℤ) + dy
        if 0 ≤ nx ∧ nx < img.width ∧ 0 ≤ ny ∧ ny < img.height then
          [(nx.toNat, ny.toNat)]
        else []

/-- `traceContour` (lines 1230-1262): stack-driven flood fill.  The stack top
is the list head; a popped visited point is skipped, otherwise the point is
marked visited (`point :: visited` — the visited structure is a set, queried
only through membership) and, when it is an edge pixel, appended to the
contour, and its not-yet-visited edge neighbours are pushed (last pushed
popped first, hence `nbrs.reverse ++ rest`).  The `while` loop is driven by
an explicit fuel so that the recursion is structural; every pop consumes one
fuel and unvisited pops are bounded by the pixel count, so the fuel supplied
by `findContours` never runs out (the exhaustion arm agrees with the
empty-stack arm once the stack is provably empty, see the budget invariant
in the theorems below). -/
def traceContour (img : Image) (t : ℚ) :
    ℕ → List Pix → List Pix → List Pix → List Pix × List Pix
  | 0, visited, _, contour => (visited, contour)
  | _ + 1, visited, [], contour => (visited, contour)
  | fuel + 1, visited, point :: rest, contour =>
    if point ∈ visited then
      traceContour img t fuel visited rest contour
    else
      let visited' := point :: visited
      if isEdgeAt img t point then
        let nbrs := (pixelNeighbors img point).filter
          (fun q => decide (q ∉ visited') && isEdgeAt img t q)
        traceContour img t fuel visited' (nbrs.reverse ++ rest) (contour ++ [point])
      else
        traceContour img t fuel visited' rest contour

/-- The row-major pixel scan order of `findContours` (lines 1265-1266). -/
def scanPixels (img : Image) : List Pix :=
  (List.range img.height).flatMap
    (fun y => (List.range img.width).map (fun x => (x, y)))

/-- `findContours` (lines 1213-1278): resolve the threshold (adaptive from the
argument image when not supplied), scan the image row-major, flood-fill from
each unvisited edge pixel, and keep contours longer than 100 points.  Each
flood fill pops at most `1 + 8 · (pixel count)` stack entries, so the fuel
`9 · width · height + 1` always suffices. -/
def findContours (edgeImage : Image) (threshold : Option ℚ := none) :
    List (List Pix) :=
  let adaptiveThreshold := threshold.getD (calculateAdaptiveThreshold edgeImage)
  (((scanPixels edgeImage).foldl
    (fun (st : List Pix × List (List Pix)) p =>
      if p ∉ st.1 ∧ isEdgeAt edgeImage adaptiveThreshold p then
        let traced := traceContour edgeImage adaptiveThreshold
          (9 * (edgeImage.width * edgeImage.height) + 1) st.1 [p] []
        if traced.2.length > 100 then (traced.1, st.2 ++ [traced.2])
        else (traced.1, st.2)
      else st)
    ([], [])).2)

/-- Cross product of two 2-D vectors. -/
def cross2 (a b : ℚ × ℚ) : ℚ := a.1 * b.2 - a.2 * b.1

/-- Which of the four angular regions of the `atan2` range `(-π, π]` the
vector lies in, numbered in increasing angle: `0` for angles in `(-π, 0)`
(`y < 0`), `1` for angle `0` (`y = 0, x ≥ 0`; `atan2 0 0 = 0`), `2` for
angles in `(0, π)` (`y > 0`), and `3` for angle `π` (`y = 0, x < 0`). -/
def angleCls (d : ℚ × ℚ) : ℕ :=
  if d.2 < 0 then 0
  else if d.2 = 0 ∧ 0 ≤ d.1 then 1
  else if 0 < d.2 then 2
  else 3

/-- Exact version of the comparison `atan2 a.2 a.1 < atan2 b.2 b.1` used by
the sort comparators of `convexHull` and `orderCorners`: compare angular
regions first; inside an open half-plane (regions 0 and 2) the angle order
agrees with the sign of the cross product. -/
def angleLt (a b : ℚ × ℚ) : Bool :=
  decide (angleCls a < angleCls b ∨
    (angleCls a = angleCls b ∧ (angleCls a = 0 ∨ angleCls a = 2) ∧
      0 < cross2 a b))

/-- The corresponding non-strict comparison handed to the stable sort. -/
def angleLe (a b : ℚ × ℚ) : Bool := ! angleLt b a

/-- The sort comparator of `convexHull` and `orderCorners` under the exact
angle order: compare the `atan2` angles of the offsets from `center`. -/
def angleLePoint (center a b : Point) : Bool :=
  angleLe (a.x - center.x, a.y - center.y) (b.x - center.x, b.y - center.y)

/-- The comparator as a decidable relation for the sort. -/
def angleRel (center : Point) : Point → Point → Prop :=
  fun a b => angleLePoint center a b = true

instance (center : Point) : DecidableRel (angleRel center) :=
  fun _ _ => inferInstanceAs (Decidable (_ = _))

/-- The pop phase of the Graham scan of `convexHull` (lines 1302-1313): while
the hull keeps at least two points and the turn through its top two points
toward `p` is not a strict left turn (`cross ≤ 0`), pop the top.  The loop
pops at most `hull.length - 1` times, so the fuel `hull.length` supplied by
`convexHull` always suffices; fuel keeps the recursion structural. -/
def grahamPop (p : Point) : ℕ → List Point → List Point
  | 0, hull => hull
  | fuel + 1, hull =>
    if hull.length > 1 then
      let a := hull.getD (hull.length - 2) ⟨0, 0⟩
      let b := hull.getD (hull.length - 1) ⟨0, 0⟩
      if (b.x - a.x) * (p.y - a.y) - (b.y - a.y) * (p.x - a.x) ≤ 0 then
        grahamPop p fuel hull.dropLast
      else hull
    else hull

/-- `convexHull` (lines 1281-1317): Graham scan.  `start` is the first point
minimal in `(y, x)`; the JS `filter(p => p !== start)` removes exactly that
array slot, i.e. the first occurrence of the minimal value, which is
`List.erase`.  The comparator returns `angleA - angleB` on `atan2` values;
the JS engine's sort is stable, and a stable sort under a total preorder has
a unique output, so it is modelled by the stable `insertionSort` under the
exact angle order `angleRel`. -/
def convexHull (points : List Point) : List Point :=
  if points.length < 3 then points
  else
    let start := points.foldl
      (fun st p => if p.y < st.y ∨ (p.y = st.y ∧ p.x < st.x) then p else st)
      points.headI
    let sorted := (points.erase start).insertionSort (angleRel start)
    sorted.foldl (fun hull p => grahamPop p hull.length hull ++ [p]) [start]

/-- `calculatePolygonArea` (lines 1440-1448): half the absolute shoelace sum
over consecutive vertex pairs with wraparound. -/
def calculatePolygonArea (points : List Point) : ℚ :=
  |((points.zip (points.rotate 1)).map
      (fun pq => pq.1.x * pq.2.y - pq.2.x * pq.1.y)).sum| / 2

/-- `findBestQuadrilateral` (lines 1415-1437): enumerate all index quadruples
`i < j < k < l` in lexicographic order and keep the first quadruple whose
shoelace area strictly exceeds the best so far (initially 0 with an empty
best quadrilateral, which is what the source returns when every candidate has
area 0). -/
def findBestQuadrilateral (points : List Point) : List Point :=
  let n := points.length
  let combos := (List.range n).flatMap (fun i =>
    (List.range n).flatMap (fun j =>
      (List.range n).flatMap (fun k =>
        (List.range n).filterMap (fun l =>
          if i < j ∧ j < k ∧ k < l then
            some [points.getD i ⟨0, 0⟩, points.getD j ⟨0, 0⟩,
                  points.getD k ⟨0, 0⟩, points.getD l ⟨0, 0⟩]
          else none))))
  (combos.foldl (fun st quad =>
    let area := calculatePolygonArea quad
    if area > st.1 then (area, quad) else st)
    ((0 : ℚ), ([] : List Point))).2

/-- `findQuadrilateral` (lines 1382-1401): convex hull, then Douglas-Peucker
simplification with `epsilon = 0.02 × hull perimeter`, then the 4-vertex
cases.  The simplification step compares sums of square roots of rationals
(point-to-chord distances against the perimeter-derived epsilon), which has
no exact rational form; it is therefore abstracted as the parameter
`approxFn : hull ↦ simplified polygon`, and every theorem below holds for
every choice of `approxFn`. -/
def findQuadrilateral (approxFn : List Point → List Point)
    (contour : List Point) : Option (List Point) :=
  let hull := convexHull contour
  let approx := approxFn hull
  if approx.length = 4 then some approx
  else if approx.length > 4 then some (findBestQuadrilateral approx)
  else none

/-- The centroid accumulation of `orderCorners` (lines 1508-1511):
`reduce((acc, p) => (acc.x + p.x/4, acc.y + p.y/4), (0, 0))`. -/
def centroid4 (corners : List Point) : Point :=
  corners.foldl (fun acc p => ⟨acc.x + p.x / 4, acc.y + p.y / 4⟩) (⟨0, 0⟩ : Point)

/-- The top-left search of `orderCorners` (lines 1520-1530): index of the
first element of `sorted` with strictly minimal `x + y`. -/
def minSumIdx (sorted : List Point) : ℕ :=
  (((List.range sorted.length).drop 1).foldl
    (fun (st : ℕ × ℚ) i =>
      let s := (sorted.getD i ⟨0, 0⟩).x + (sorted.getD i ⟨0, 0⟩).y
      if s < st.2 then (i, s) else st)
    (0, (sorted.getD 0 ⟨0, 0⟩).x + (sorted.getD 0 ⟨0, 0⟩).y)).1

/-- `orderCorners` (lines 1506-1539): centroid, stable sort by `atan2` angle
around it (exact order `angleRel`, see `convexHull`), then rotate the result
so that the first
point with minimal `x + y` comes first (indices taken modulo 4 as in the
source). -/
def orderCorners (corners : List Point) : List Point :=
  let center := centroid4 corners
  let sorted := corners.insertionSort (angleRel center)
  let topLeftIdx := minSumIdx sorted
  [sorted.getD topLeftIdx ⟨0, 0⟩,
   sorted.getD ((topLeftIdx + 1) % 4) ⟨0, 0⟩,
   sorted.getD ((topLeftIdx + 2) % 4) ⟨0, 0⟩,
   sorted.getD ((topLeftIdx + 3) % 4) ⟨0, 0⟩]

/-- The body of the contour loop of `detectPage` (lines 1469-1481), tracking
the best quadrilateral so far and its area (`maxArea`, initially 0). -/
def detectStep (approxFn : List Point → List Point) (frameArea minArea : ℚ)
    (st : Option (List Point) × ℚ) (contour : List Point) :
    Option (List Point) × ℚ :=
  match findQuadrilateral approxFn contour with
  | some quad =>
    let area := calculatePolygonArea quad
    if area / frameArea ≥ minArea ∧ area > st.2 then (some quad, area)
    else st
  | none => st

/-- `detectPage` (lines 1451-1503): edge detection, contour finding (with the
adaptive threshold), quadrilateral extraction per contour, selection of the
qualifying quadrilateral (`areaRatio ≥ minArea`) with the strictly largest
area, then corner ordering and confidence scoring.  `approxFn` abstracts the
Douglas-Peucker step (see `findQuadrilateral`) and `confFn` abstracts
`calculateConfidence`, whose square roots and `atan2` degrees have no exact
rational form; `now` stands for `Date.now()`.  The theorems below hold for
every choice of `approxFn` and `confFn`. -/
def detectPage (approxFn : List Point → List Point) (confFn : List Point → ℚ)
    (now : ℚ) (imageData : Image) (options : PageDetectionOptions) :
    Option DetectedPage :=
  let opts := resolveOptions options
  let frameArea : ℚ := (imageData.width : ℚ) * imageData.height
  let edges := detectEdges imageData
  let contours := (findContours edges none).map
    (List.map (fun p => Point.mk p.1 p.2))
  let best := contours.foldl (detectStep approxFn frameArea opts.minArea) (none, 0)
  match best.1 with
  | none => none
  | some bestQuad =>
    let orderedCorners := orderCorners bestQuad
    some { corners := orderedCorners
           confidence := confFn orderedCorners
           frameIndex := 0
           timestamp := now
           qualityScore := 0 }

/-! ## Perspective correction (lines 1728-1902) -/

/-- `aug[r][c]` on a rational matrix held as a list of rows. -/
def getEntry (aug : List (List ℚ)) (r c : ℕ) : ℚ := (aug.getD r []).getD c 0

/-- Write `aug[r][c] = v`. -/
def setEntry (aug : List (List ℚ)) (r c : ℕ) (v : ℚ) : List (List ℚ) :=
  aug.set r ((aug.getD r []).set c v)

/-- `solveLinearSystem` (lines 1766-1804): Gaussian elimination with partial
pivoting over the augmented matrix, then back substitution.  Exact rational
division models the floating-point division; a zero pivot (singular system,
unguarded in the source) divides by zero, which is 0 here and non-finite in
JS — none of the theorems below depend on that case. -/
def solveLinearSystem (A : List (List ℚ)) (b : List ℚ) : List ℚ :=
  let n := A.length
  let augmented := (A.zip b).map (fun rb => rb.1 ++ [rb.2])
  let elim := (List.range n).foldl (fun aug i =>
    let maxRow := (List.range n).foldl
      (fun mr k =>
        if i + 1 ≤ k ∧ |getEntry aug k i| > |getEntry aug mr i| then k else mr) i
    let augSwapped := (aug.set i (aug.getD maxRow [])).set maxRow (aug.getD i [])
    (List.range n).foldl (fun a k =>
      if i + 1 ≤ k then
        let c := getEntry a k i / getEntry a i i
        a.set k ((a.getD k []).enum.map (fun jv =>
          if jv.1 < i then jv.2
          else if jv.1 = i then 0
          else jv.2 - c * getEntry a i jv.1))
      else a) augSwapped) augmented
  (((List.range n).reverse).foldl (fun (st : List (List ℚ) × List ℚ) i =>
    let xi := getEntry st.1 i n / getEntry st.1 i i
    let aug' := (List.range i).foldl
      (fun a k => setEntry a k n (getEntry a k n - getEntry a k i * xi)) st.1
    (aug', st.2.set i xi))
    (elim, List.replicate n 0)).2

/-- `calculateHomography` (lines 1737-1763): assemble the 8×8 system mapping
`src` to `dst`, solve it, and lay the 8 unknowns out as a 3×3 matrix with
bottom-right entry 1. -/
def calculateHomography (src dst : List Point) : List (List ℚ) :=
  let A := (List.range 4).flatMap (fun i =>
    let s := src.getD i ⟨0, 0⟩
    let d := dst.getD i ⟨0, 0⟩
    [[s.x, s.y, 1, 0, 0, 0, -d.x * s.x, -d.x * s.y],
     [0, 0, 0, s.x, s.y, 1, -d.y * s.x, -d.y * s.y]])
  let b := (List.range 4).flatMap (fun i =>
    let d := dst.getD i ⟨0, 0⟩
    [d.x, d.y])
  let h := solveLinearSystem A b
  [[h.getD 0 0, h.getD 1 0, h.getD 2 0],
   [h.getD 3 0, h.getD 4 0, h.getD 5 0],
   [h.getD 6 0, h.getD 7 0, 1]]

/-- `applyHomography` (lines 1807-1816).  When the homogeneous coordinate `w`
vanishes the JS division produces non-finite values that fail every bounds
comparison downstream; `none` models exactly that outcome. -/
def applyHomography (p : Point) (H : List (List ℚ)) : Option Point :=
  let w := getEntry H 2 0 * p.x + getEntry H 2 1 * p.y + getEntry H 2 2
  if w = 0 then none
  else some ⟨(getEntry H 0 0 * p.x + getEntry H 0 1 * p.y + getEntry H 0 2) / w,
             (getEntry H 1 0 * p.x + getEntry H 1 1 * p.y + getEntry H 1 2) / w⟩

/-- `Math.round`: round half away from zero is round half up on the
nonnegative values that occur here. -/
def roundHalfUp (q : ℚ) : ℤ := ⌊q + 1/2⌋

/-- Squared Euclidean distance; the source's `distance` (lines 1574-1576)
is its square root, carried squared here (see the file header). -/
def dist2 (p1 p2 : Point) : ℚ := (p2.x - p1.x) ^ 2 + (p2.y - p1.y) ^ 2

/-- `Math.round (Math.sqrt x)` for a nonnegative rational `x`, computed
exactly: `⌊√x⌋ = ⌊√⌊x⌋⌋ = intSqrt ⌊x⌋`, and the result rounds up exactly
when `x ≥ (⌊√x⌋ + 1/2)²` (`Math.round` rounds halves up). -/
def ratRoundSqrt (x : ℚ) : ℕ :=
  let s := intSqrt ⌊x⌋.toNat
  if x < ((s : ℚ) + 1/2) ^ 2 then s else s + 1

/-- The bounds test of the resampling loop (line 1866):
`srcX >= 0 && srcX < srcWidth - 1 && srcY >= 0 && srcY < srcHeight - 1`,
exactly the region where all four bilinear neighbours exist. -/
def inSourceBounds (img : Image) (sp : Point) : Prop :=
  0 ≤ sp.x ∧ sp.x < (img.width : ℚ) - 1 ∧ 0 ≤ sp.y ∧ sp.y < (img.height : ℚ) - 1

instance (img : Image) (sp : Point) : Decidable (inSourceBounds img sp) :=
  inferInstanceAs (Decidable (_ ∧ _ ∧ _ ∧ _))

/-- Bilinear interpolation of channel `c` at fractional source coordinate
`sp` (lines 1868-1889), including the final `Math.round` before the
`Uint8ClampedArray` store (the rounded value already lies in 0..255). -/
def bilinearAt (img : Image) (sp : Point) (c : ℕ) : ℕ :=
  let x0 := ⌊sp.x⌋
  let x1 := ⌈sp.x⌉
  let y0 := ⌊sp.y⌋
  let y1 := ⌈sp.y⌉
  let fx := sp.x - x0
  let fy := sp.y - y0
  let atPx := fun (yy xx : ℤ) =>
    (img.data ((yy.toNat * img.width + xx.toNat) * 4 + c) : ℚ)
  let p0 := atPx y0 x0 * (1 - fx) + atPx y0 x1 * fx
  let p1 := atPx y1 x0 * (1 - fx) + atPx y1 x1 * fx
  (roundHalfUp (p0 * (1 - fy) + p1 * fy)).toNat

/-- The `!targetWidth` / `!targetHeight` falsy test (line 1826). -/
def falsyDim (o : Option ℕ) : Bool :=
  match o with
  | none => true
  | some 0 => true
  | some _ => false

/-- The derived target dimensions (lines 1828-1834):
width = `round(max(widthTop, widthBottom))`,
height = `round(max(heightLeft, heightRight))`. -/
def derivedDims (srcCorners : List Point) : ℕ × ℕ :=
  let c0 := srcCorners.getD 0 ⟨0, 0⟩
  let c1 := srcCorners.getD 1 ⟨0, 0⟩
  let c2 := srcCorners.getD 2 ⟨0, 0⟩
  let c3 := srcCorners.getD 3 ⟨0, 0⟩
  (ratRoundSqrt (ratMax (dist2 c0 c1) (dist2 c3 c2)),
   ratRoundSqrt (ratMax (dist2 c0 c3) (dist2 c1 c2)))

/-- The output raster of the resampling loop (lines 1850-1899) for target
dimensions `tw × th`. -/
def perspectiveOutput (imageData : Image) (srcCorners : List Point)
    (tw th : ℕ) : Image :=
  let dstCorners : List Point := [⟨0, 0⟩, ⟨tw, 0⟩, ⟨tw, th⟩, ⟨0, th⟩]
  let H := calculateHomography dstCorners srcCorners
  { width := tw, height := th
    data := fun i =>
      let pxl := i / 4
      let c := i % 4
      let x := pxl % tw
      let y := pxl / tw
      if i < tw * th * 4 then
        match applyHomography ⟨x, y⟩ H with
        | some sp =>
          if inSourceBounds imageData sp then bilinearAt imageData sp c
          else 255
        | none => 255
      else 0 }

/-- `applyPerspectiveCorrection` (lines 1819-1902).  When either target
dimension is absent (or 0 — the JS `!targetWidth` test), both are derived
from the corner geometry: width = `round(max(widthTop, widthBottom))` and
height = `round(max(heightLeft, heightRight))`, where the edge lengths are
square roots; `round(max(√a, √b)) = ratRoundSqrt (max a b)` since the square
root is monotone.  `new ImageData(w, h)` throws on a zero dimension, modelled
as `none`.  Each destination pixel is bilinearly interpolated when its
homography image lies in `inSourceBounds` and is white (255 in all four
channels) otherwise; the rest of the fresh buffer stays 0. -/
def applyPerspectiveCorrection (imageData : Image) (srcCorners : List Point)
    (targetWidth : Option ℕ := none) (targetHeight : Option ℕ := none) :
    Option Image :=
  let dims : ℕ × ℕ :=
    if falsyDim targetWidth || falsyDim targetHeight then derivedDims srcCorners
    else (targetWidth.getD 0, targetHeight.getD 0)
  if dims.1 = 0 ∨ dims.2 = 0 then none
  else some (perspectiveOutput imageData srcCorners dims.1 dims.2)

/-! ## Content histograms and frame quality
(lines 1905-1947 and part_017 lines 225-259) -/

/-- The unrounded luminance `data[idx]*0.299 + data[idx+1]*0.587 +
data[idx+2]*0.114` of pixel `(x, y)`. -/
def lumQ (img : Image) (x y : ℕ) : ℚ :=
  (299 * (img.data ((y * img.width + x) * 4) : ℚ) +
   587 * (img.data ((y * img.width + x) * 4 + 1) : ℚ) +
   114 * (img.data ((y * img.width + x) * 4 + 2) : ℚ)) / 1000

/-- `analyzeFrameQuality` (part_017 lines 225-259): variance of a 5-point
Laplacian over the interior pixels.  An empty interior divides by zero
(NaN in JS, 0 here); the inputs used below always have an interior. -/
def analyzeFrameQuality (img : Image) : ℚ :=
  let lap := fun (x y : ℕ) =>
    -lumQ img x y + lumQ img x (y - 1) * (1/4) + lumQ img x (y + 1) * (1/4) +
      lumQ img (x - 1) y * (1/4) + lumQ img (x + 1) y * (1/4)
  let vals := (List.range (img.height - 2)).flatMap (fun j =>
    (List.range (img.width - 2)).map (fun i => lap (i + 1) (j + 1)))
  let count : ℚ := vals.length
  let mean := vals.sum / count
  (vals.map (fun v => v * v)).sum / count - mean * mean

/-- `calculateHistogram` (lines 1905-1932): luminance histogram over the
central 80% × 80% region, normalized by the sample count.  The loops run over
fractional coordinates `start, start+1, …` while below `start + extent`,
i.e. `⌈extent⌉` times, and each sample reads the pixel at the floored
coordinates; the histogram is expressed by counting the samples of each bin
(`min (⌊gray / binSize⌋) (bins - 1)`), which produces the same tallies as the
source's in-place increments. -/
def calculateHistogram (img : Image) (bins : ℕ := 32) : List ℚ :=
  let gray := toGrayscale img
  let binSize : ℚ := 256 / bins
  let w := img.width
  let h := img.height
  let xStart : ℚ := (w : ℚ) / 2 - (w : ℚ) * (4/5) / 2
  let yStart : ℚ := (h : ℚ) / 2 - (h : ℚ) * (4/5) / 2
  let samples := (List.range (Nat.ceil ((h : ℚ) * (4/5)))).flatMap (fun j =>
    (List.range (Nat.ceil ((w : ℚ) * (4/5)))).filterMap (fun i =>
      let xq := xStart + i
      let yq := yStart + j
      if 0 ≤ xq ∧ xq < w ∧ 0 ≤ yq ∧ yq < h then
        some (gray (⌊yq⌋.toNat * w + ⌊xq⌋.toNat))
      else none))
  let count : ℚ := samples.length
  ((List.range bins).map (fun b =>
    (samples.countP (fun g => min (⌊(g : ℚ) / binSize⌋.toNat) (bins - 1) = b) : ℚ)
      / count))

/-- `compareHistograms` (lines 1935-1947): chi-square style distance over the
bins of the first histogram, skipping bins whose sum is not positive. -/
def compareHistograms (hist1 hist2 : List ℚ) : ℚ :=
  ((List.range hist1.length).map (fun i =>
    let a := hist1.getD i 0
    let b := hist2.getD i 0
    if a + b > 0 then (a - b) ^ 2 / (a + b) else 0)).sum

/-! ## The page extraction orchestrator
(`VideoFrameExtractor.extractPagesFromVideo`, part_017 lines 311-464) -/

/-- One extracted frame as the orchestrator records it; the encoded JPEG blob
is binary output outside the model. -/
structure ExtractedFrameModel where
  timestamp : ℚ
  index : ℕ
  qualityScore : ℚ
  pageDetection : Option DetectedPage
  histogram : List ℚ
  deriving DecidableEq, Repr

/-- `captureFrame` (part_017 lines 152-211) as the orchestrator uses it:
quality score, content histogram and page detection of the current frame.
`detect` is the configured `detectPage` call. -/
def captureFrameModel (detect : Image → Option DetectedPage) (img : Image)
    (timestamp : ℚ) (index : ℕ) : ExtractedFrameModel :=
  { timestamp := timestamp, index := index
    qualityScore := analyzeFrameQuality img
    pageDetection := detect img
    histogram := calculateHistogram img 32 }

/-- The scanning state of `extractPagesFromVideo`: current seek time, pages
captured so far, the last captured detection and histogram, and the
histograms of all captured pages. -/
structure ExtractState where
  time : ℚ
  detectedPages : List ExtractedFrameModel
  lastDetectedPage : Option DetectedPage
  lastPageHistogram : Option (List ℚ)
  pageHistograms : List (List ℚ)

/-- The scanning loop of `extractPagesFromVideo` (part_017 lines 349-452).
`detect` abstracts the configured `detectPage` call and `isDiff` abstracts
`isDifferentPage` (whose corner-movement test compares a sum of four square
roots against a pixel threshold, which has no exact rational form); the
theorems below hold for every choice of both.  The stability tracker is
updated by the source loop but never read inside `extractPagesFromVideo`, so
it is omitted from the state.  `fuel` bounds the number of iterations; the
time advances by at least `intervalSeconds` per iteration, so any fuel of at
least `⌈duration / intervalSeconds⌉` reproduces the source loop, and the
theorems hold for every fuel.  On loop exit the source resolves
`detectedPages` unconditionally ("Always return detected pages, even if it's
just a few"). -/
def extractPagesLoop (detect : Image → Option DetectedPage)
    (isDiff : DetectedPage → DetectedPage → Bool) (frameAt : ℚ → Image)
    (duration intervalSeconds minQualityScore : ℚ) (maxFrames : ℕ) :
    ℕ → ExtractState → List ExtractedFrameModel
  | 0, st => st.detectedPages
  | fuel + 1, st =>
    if st.time < duration then
      let frame := captureFrameModel detect (frameAt st.time) st.time
        st.detectedPages.length
      let st' : ExtractState :=
        match frame.pageDetection with
        | some det =>
          if frame.qualityScore ≠ 0 ∧ frame.qualityScore ≥ minQualityScore then
            let shouldCapture :=
              match st.lastDetectedPage with
              | none => true
              | some lastP =>
                let isDifferent := isDiff lastP det
                match st.lastPageHistogram with
                | some lastH =>
                  let histogramDistance := compareHistograms frame.histogram lastH
                  if histogramDistance > 3/10 then true
                  else if isDifferent ∧ histogramDistance > 1/10 then true
                  else false
                | none => isDifferent
            if shouldCapture then
              if st.detectedPages.length = 0 ∨
                  st.time - ((st.detectedPages.getLast?.map (·.timestamp)).getD 0)
                    > 1 then
                let isDuplicate := st.pageHistograms.any
                  (fun h => compareHistograms frame.histogram h < 1/5)
                if ¬ isDuplicate then
                  { st with
                    detectedPages := st.detectedPages ++ [frame]
                    lastDetectedPage := frame.pageDetection
                    lastPageHistogram := some frame.histogram
                    pageHistograms := st.pageHistograms ++ [frame.histogram]
                    time := st.time + 3/2 }
                else { st with time := st.time + 3/10 }
              else st
            else st
          else st
        | none => st
      if st'.detectedPages.length ≥ maxFrames then st'.detectedPages
      else
        extractPagesLoop detect isDiff frameAt duration intervalSeconds
          minQualityScore maxFrames fuel { st' with time := st'.time + intervalSeconds }
    else st.detectedPages

/-- `extractPagesFromVideo` (part_017 lines 311-464) with its option
defaults (interval 0.2 s, minimum quality 15, at most 100 frames). -/
def extractPagesFromVideo (detect : Image → Option DetectedPage)
    (isDiff : DetectedPage → DetectedPage → Bool) (frameAt : ℚ → Image)
    (duration : ℚ) (intervalSeconds : ℚ := 1/5) (minQualityScore : ℚ := 15)
    (maxFrames : ℕ := 100) (fuel : ℕ) : List ExtractedFrameModel :=
  extractPagesLoop detect isDiff frameAt duration intervalSeconds
    minQualityScore maxFrames fuel
    { time := 0, detectedPages := [], lastDetectedPage := none
      lastPageHistogram := none, pageHistograms := [] }

/-- The seek times of the plain `extractFrames` loop (part_017 lines 84-131):
`0, interval, 2·interval, …` while below the duration (`fuel` as above). -/
def sampleTimes (duration intervalSeconds : ℚ) : ℕ → ℚ → List ℚ
  | 0, _ => []
  | fuel + 1, t =>
    if t < duration then t :: sampleTimes duration intervalSeconds fuel (t + intervalSeconds)
    else []

/-- `extractFrames` (part_017 lines 84-131): capture one frame per sample
time, with page detection disabled. -/
def extractFramesModel (frameAt : ℚ → Image) (duration intervalSeconds : ℚ)
    (fuel : ℕ) : List ExtractedFrameModel :=
  ((sampleTimes duration intervalSeconds fuel 0).enum).map
    (fun ti => captureFrameModel (fun _ => none) (frameAt ti.2) ti.2 ti.1)

/-- Split a list into consecutive chunks of `n` elements (the segment slices
of `selectBestFrames`). -/
def chunksOf {α : Type} (n : ℕ) : List α → List (List α)
  | [] => []
  | a :: t =>
    if _h : n = 0 then [a :: t]
    else (a :: t).take n :: chunksOf n ((a :: t).drop n)
termination_by l => l.length
decreasing_by
  simp only [List.length_drop, List.length_cons]
  omega

instance : Inhabited ExtractedFrameModel :=
  ⟨{ timestamp := 0, index := 0, qualityScore := 0, pageDetection := none
     histogram := [] }⟩

/-- `selectBestFrames` (part_017 lines 294-309): segment the list, keep the
highest-quality frame of each segment (first of equal bests), truncate to
the target count. -/
def selectBestFrames (frames : List ExtractedFrameModel) (targetCount : ℕ) :
    List ExtractedFrameModel :=
  let segmentSize := Nat.ceil ((frames.length : ℚ) / targetCount)
  ((chunksOf segmentSize frames).map (fun seg =>
    match seg with
    | [] => default
    | f :: rest =>
      rest.foldl (fun best fr =>
        if fr.qualityScore > best.qualityScore then fr else best) f)).take targetCount

/-- `extractFramesWithQuality` (part_017 lines 261-292): sample every frame,
keep those whose quality reaches `minQualityScore`, and thin with
`selectBestFrames` when more than `maxFrames` remain. -/
def extractFramesWithQuality (frameAt : ℚ → Image) (duration : ℚ)
    (intervalSeconds : ℚ := 1/2) (minQualityScore : ℚ := 50)
    (maxFrames : ℕ := 50) (smartSelection : Bool := true) (fuel : ℕ) :
    List ExtractedFrameModel :=
  let allFrames := extractFramesModel frameAt duration intervalSeconds fuel
  if ¬ smartSelection then allFrames
  else
    let qualityFrames := allFrames.filter
      (fun f => decide (f.qualityScore ≥ minQualityScore))
    if qualityFrames.length > maxFrames then selectBestFrames qualityFrames maxFrames
    else qualityFrames

/-! ## Connectivity vocabulary for the contour claims -/

/-- 8-connected adjacency of two distinct pixel coordinates. -/
def adjPix (p q : Pix) : Prop :=
  p ≠ q ∧ ((p.1 : ℤ) - q.1).natAbs ≤ 1 ∧ ((p.2 : ℤ) - q.2).natAbs ≤ 1

instance (p q : Pix) : Decidable (adjPix p q) :=
  inferInstanceAs (Decidable (_ ∧ _))

/-- One step between two above-threshold pixels that are 8-adjacent. -/
def edgeStep (img : Image) (t : ℚ) (a b : Pix) : Prop :=
  isEdgeAt img t a = true ∧ isEdgeAt img t b = true ∧ adjPix a b

/-- `ReachE img t p q`: `q` lies in the 8-connected region of above-threshold
pixels containing `p` (reflexive-transitive closure of `edgeStep`). -/
def ReachE (img : Image) (t : ℚ) : Pix → Pix → Prop :=
  Relation.ReflTransGen (edgeStep img t)

/-! ## Concrete inputs used by the witnesses and counterexamples -/

/-- A uniform light-gray 4×4 RGBA frame (every channel 200, alpha 255). -/
def uniformGray : Image :=
  ⟨4, 4, fun i => if i % 4 = 3 then 255 else 200⟩

/-- A fixed axis-aligned detection used to build tracker states. -/
def d0 : DetectedPage :=
  { corners := [⟨0, 0⟩, ⟨1, 0⟩, ⟨1, 1⟩, ⟨0, 1⟩], confidence := 1
    frameIndex := 0, timestamp := 0, qualityScore := 0 }

/-- A tracker state whose options carry an explicit `motionThreshold` of 0,
two identical detections and two motion samples of 0.1. -/
def sQuirk : TrackerState :=
  { history := [d0, d0]
    motionHistory := [⟨1/10, 0, 0⟩, ⟨1/10, 0, 0⟩]
    options := { minArea := 1/5, maxSkewAngle := 30, stabilityThreshold := 10
                 stabilityDuration := 300, motionThreshold := 0 }
    previousFrame := none }

/-- A tracker state with a single recorded detection. -/
def sOne : TrackerState :=
  { history := [d0], motionHistory := [], options := DEFAULT_OPTIONS
    previousFrame := none }

/-- A stable tracker state under the default options. -/
def sGood : TrackerState :=
  { history := [d0, d0]
    motionHistory := [⟨1/10, 0, 0⟩, ⟨1/10, 0, 0⟩]
    options := DEFAULT_OPTIONS
    previousFrame := none }

/-- A tracker state that has already seen the frame `uniformGray`. -/
def sSeen : TrackerState :=
  { history := [d0], motionHistory := [⟨0, 0, 0⟩], options := DEFAULT_OPTIONS
    previousFrame := some uniformGray }

/-- A small 4×4 frame with varying content. -/
def img4 : Image :=
  ⟨4, 4, fun i => if i % 4 = 3 then 255 else i / 4 % 7 * 30⟩

/-- An axis-aligned 2×2 source square inside `img4`. -/
def corners4 : List Point := [⟨0, 0⟩, ⟨2, 0⟩, ⟨2, 2⟩, ⟨0, 2⟩]

/-- The image produced by `applyPerspectiveCorrection` on `img4` and
`corners4` with derived target dimensions. -/
def c6Out : Image :=
  (applyPerspectiveCorrection img4 corners4 none none).getD default

/-- A 6×6 checkerboard frame: sharp (nonzero Laplacian variance) but with a
uniformly zero Sobel map, hence no contours and no detectable page. -/
def checkerImg : Image :=
  ⟨6, 6, fun i =>
    if i % 4 = 3 then 255
    else if (i / 4 / 6 + i / 4 % 6) % 2 = 0 then 255 else 0⟩

/-- The page-detection options `scanService.processVideo` passes to
`extractPagesFromVideo` (scanService.ts lines 91-97). -/
def scanServiceOptions : PageDetectionOptions :=
  { minArea := some (1/5), stabilityDuration := some 100
    stabilityThreshold := some 30, motionThreshold := some (1/4)
    maxSkewAngle := some 30 }

/-- An `(n+2)`-wide, 3-tall edge map whose above-threshold pixels are exactly
the horizontal run `y = 1, 1 ≤ x ≤ n` (value 255, everything else 0). -/
def runImage (n : ℕ) : Image :=
  ⟨n + 2, 3, fun i =>
    if i % 4 = 3 then 255
    else if i / 4 / (n + 2) = 1 ∧ 1 ≤ i / 4 % (n + 2) ∧ i / 4 % (n + 2) ≤ n
    then 255 else 0⟩

/-- A 104×3 RGBA frame whose gray level ramps as `(4x) mod 248` along every
row.  Its Sobel magnitude along the single interior row `y = 1` is 32
(960, clamped to 255, at the two wrap columns 61 and 62), the adaptive
threshold of its edge map is 30, and so the edge map holds a single
102-pixel 8-connected above-threshold region. -/
def stripeImage : Image :=
  ⟨104, 3, fun i => if i % 4 = 3 then 255 else (4 * (i / 4 % 104)) % 248⟩

/-- The loop body of `findContours` (lines 1268-1277) as a named function:
`findContours_eq` below states that `findContours` is definitionally the fold
of this step over the row-major scan. -/
def contourStep (img : Image) (t : ℚ) (st : List Pix × List (List Pix))
    (p : Pix) : List Pix × List (List Pix) :=
  if p ∉ st.1 ∧ isEdgeAt img t p then
    let traced := traceContour img t (9 * (img.width * img.height) + 1) st.1 [p] []
    if traced.2.length > 100 then (traced.1, st.2 ++ [traced.2])
    else (traced.1, st.2)
  else st

/-! # Theorems -/

/-! ## C3: the adaptive threshold -/

/-- C3 counterexample: in `detectPage`, `findContours` receives no explicit
threshold and computes the adaptive threshold from the edge-magnitude map it
is given, not from the original grayscale frame.  On the uniform gray frame
the original-frame threshold is 80 (85th percentile at intensity 200, scaled
and clamped) while the threshold actually used — computed from the all-zero
edge map — is 30, so the two disagree. -/
theorem adaptiveThreshold_from_edge_map_counterexample :
    calculateAdaptiveThreshold (detectEdges uniformGray) = 30 ∧
    calculateAdaptiveThreshold uniformGray = 80 ∧
    calculateAdaptiveThreshold (detectEdges uniformGray) ≠
      calculateAdaptiveThreshold uniformGray := by
  have h1 : thresholdScanHit (detectEdges uniformGray) = some 0 := by decide
  have h2 : thresholdScanHit uniformGray = some 200 := by decide
  have e1 : calculateAdaptiveThreshold (detectEdges uniformGray) = 30 := by
    rw [calculateAdaptiveThreshold, h1]
    norm_num [ratMax, ratMin]
  have e2 : calculateAdaptiveThreshold uniformGray = 80 := by
    rw [calculateAdaptiveThreshold, h2]
    norm_num [ratMax, ratMin]
  refine ⟨e1, e2, ?_⟩
  rw [e1, e2]
  norm_num

/-- C3 (amended): when `findContours` is called without an explicit
threshold, the threshold it uses is `calculateAdaptiveThreshold` of the image
it is handed — the edge-magnitude map in `detectPage`'s call — i.e. the
intensity at the 85th percentile of that image's luminance histogram, scaled
by 0.5 and clamped to [30, 80]; in particular the adaptive threshold always
lies in [30, 80]. -/
theorem findContours_adaptive_threshold_range (edgeImage : Image) :
    findContours edgeImage none =
      findContours edgeImage (some (calculateAdaptiveThreshold edgeImage)) ∧
    30 ≤ calculateAdaptiveThreshold edgeImage ∧
    calculateAdaptiveThreshold edgeImage ≤ 80 := by
  refine ⟨rfl, ?_, ?_⟩ <;> {
    rw [calculateAdaptiveThreshold]
    cases thresholdScanHit edgeImage with
    | none => norm_num
    | some i =>
      simp only [ratMax, ratMin]
      split_ifs <;> linarith
  }

/-! ## C4: necessary conditions for stability -/

/-- C4 counterexample: a state whose options carry an explicit
`motionThreshold` of 0.  Because `isStable` reads
`this.options.motionThreshold || 0.15`, the explicit 0 is replaced by 0.15,
and `isStable` returns true although the average of the two most recent
motion scores (0.1) exceeds the state's `motionThreshold` (0) — contradicting
the claim read with the state's own threshold. -/
theorem isStable_explicit_zero_motionThreshold_counterexample :
    sQuirk.isStable = true ∧
    2 ≤ sQuirk.motionHistory.length ∧
    ((sQuirk.motionHistory.drop (sQuirk.motionHistory.length - 2)).map
        (fun m => m.motionScore)).sum / 2 > sQuirk.options.motionThreshold := by
  refine ⟨?_, by decide, by norm_num [sQuirk]⟩
  rw [TrackerState.isStable]
  norm_num [sQuirk, recentMotionAvg, effectiveMotionThreshold, cornersStable,
    cornerAt, distGt, d0, List.all_eq_true]

/-- C4 (amended): `isStable` returns false whenever fewer than 2 detections
are in the history; and it returns true only when (a) if at least 2 motion
samples exist, the average motion score of the most recent 2 samples does not
exceed the effective motion threshold — `motionThreshold` when nonzero,
otherwise the 0.15 default (the JS `||` fallback) — and (b) each of the 4
corresponding corners of the two most recent detections differ by at most
`2 × stabilityThreshold` pixels (`distGt … = false` states that the Euclidean
distance does not exceed the bound). -/
theorem isStable_requires_low_motion_and_still_corners (s : TrackerState) :
    (s.history.length < 2 → s.isStable = false) ∧
    (s.isStable = true →
      (2 ≤ s.motionHistory.length →
        ((s.motionHistory.drop (s.motionHistory.length - 2)).map
            (fun m => m.motionScore)).sum / 2 ≤
          (if s.options.motionThreshold = 0 then 3/20
           else s.options.motionThreshold)) ∧
      (∃ a b, s.history.drop (s.history.length - 2) = [a, b] ∧
        ∀ j < 4, distGt (cornerAt a j) (cornerAt b j)
          (s.options.stabilityThreshold * 2) = false)) := by
  constructor
  · intro h
    simp [TrackerState.isStable, h]
  · intro h
    by_cases hlen : s.history.length < 2
    · rw [TrackerState.isStable, if_pos hlen] at h
      exact absurd h (by simp)
    · push_neg at hlen
      rw [TrackerState.isStable, if_neg (by omega)] at h
      by_cases hmot : 2 ≤ s.motionHistory.length ∧
          recentMotionAvg s > effectiveMotionThreshold s
      · rw [if_pos hmot] at h
        exact absurd h (by simp)
      · rw [if_neg hmot] at h
        constructor
        · intro hmlen
          have havg : ¬ recentMotionAvg s > effectiveMotionThreshold s :=
            fun hgt => hmot ⟨hmlen, hgt⟩
          push_neg at havg
          have hdl : (s.motionHistory.drop (s.motionHistory.length - 2)).length
              = 2 := by
            rw [List.length_drop]
            omega
          rw [recentMotionAvg, effectiveMotionThreshold] at havg
          simpa [hdl] using havg
        · have hdl2 : (s.history.drop (s.history.length - 2)).length = 2 := by
            rw [List.length_drop]
            omega
          obtain ⟨a, l, hal⟩ :=
            List.exists_cons_of_ne_nil (l := s.history.drop (s.history.length - 2))
              (by intro hnil; rw [hnil] at hdl2; simp at hdl2)
          obtain ⟨b, l2, hbl⟩ := List.exists_cons_of_ne_nil (l := l)
            (by intro hnil
                rw [hal, hnil] at hdl2
                simp at hdl2)
          have hl2 : l2 = [] := by
            rw [hal, hbl] at hdl2
            simpa using hdl2
          have hab : s.history.drop (s.history.length - 2) = [a, b] := by
            rw [hal, hbl, hl2]
          refine ⟨a, b, hab, ?_⟩
          intro j hj
          rw [hab] at h
          simp only [List.all_cons, List.all_nil, Bool.and_true] at h
          rw [cornersStable] at h
          have := (List.all_eq_true.mp h) j (by simpa using hj)
          simpa using this

/-- Witness for `isStable_requires_low_motion_and_still_corners`: the first
part at a one-detection state, the second at a concrete stable state. -/
theorem isStable_requires_low_motion_and_still_corners_witness :
    sOne.isStable = false ∧
    ((2 ≤ sGood.motionHistory.length →
        ((sGood.motionHistory.drop (sGood.motionHistory.length - 2)).map
            (fun m => m.motionScore)).sum / 2 ≤
          (if sGood.options.motionThreshold = 0 then 3/20
           else sGood.options.motionThreshold)) ∧
      (∃ a b, sGood.history.drop (sGood.history.length - 2) = [a, b] ∧
        ∀ j < 4, distGt (cornerAt a j) (cornerAt b j)
          (sGood.options.stabilityThreshold * 2) = false)) := by
  constructor
  · exact (isStable_requires_low_motion_and_still_corners sOne).1 (by decide)
  · refine (isStable_requires_low_motion_and_still_corners sGood).2 ?_
    rw [TrackerState.isStable]
    norm_num [sGood, DEFAULT_OPTIONS, recentMotionAvg, effectiveMotionThreshold,
      cornersStable, cornerAt, distGt, d0, List.all_eq_true]

/-! ## Correctness of the binary-search square root -/

/-- The binary search of `sqrtGo` lands on `⌊√s⌋` whenever the invariant
`lo² ≤ s < hi²`, `lo < hi` holds and the fuel covers the interval width. -/
theorem sqrtGo_bracket (s : ℕ) : ∀ (fuel lo hi : ℕ), lo * lo ≤ s → s < hi * hi →
    lo < hi → hi - lo ≤ fuel + 1 →
    sqrtGo s fuel lo hi * sqrtGo s fuel lo hi ≤ s ∧
      s < (sqrtGo s fuel lo hi + 1) * (sqrtGo s fuel lo hi + 1) := by
  intro fuel
  induction fuel with
  | zero =>
    intro lo hi h1 h2 h3 h4
    have hhi : hi = lo + 1 := by omega
    subst hhi
    simpa [sqrtGo] using ⟨h1, h2⟩
  | succ n ih =>
    intro lo hi h1 h2 h3 h4
    simp only [sqrtGo]
    split_ifs with hb hm
    · have hhi : hi = lo + 1 := by omega
      subst hhi
      exact ⟨h1, h2⟩
    · exact ih ((lo + hi) / 2) hi hm h2 (by omega) (by omega)
    · exact ih lo ((lo + hi) / 2) h1 (by omega) (by omega) (by omega)

/-- `intSqrt s` is the integer square root: `(intSqrt s)² ≤ s < (intSqrt s + 1)²`. -/
theorem intSqrt_le_and_lt (s : ℕ) :
    intSqrt s * intSqrt s ≤ s ∧ s < (intSqrt s + 1) * (intSqrt s + 1) := by
  refine sqrtGo_bracket s (s + 1) 0 (s + 1) (by simp) ?_ (by omega) (by omega)
  nlinarith

/-! ## C6: perspective correction -/

/-- Decoding of the flat RGBA buffer index `(y·W + x)·4 + c`. -/
theorem pix_index_decode (W H x y c : ℕ) (hx : x < W) (hy : y < H)
    (hc : c < 4) :
    ((y * W + x) * 4 + c) / 4 = y * W + x ∧
    ((y * W + x) * 4 + c) % 4 = c ∧
    (y * W + x) % W = x ∧ (y * W + x) / W = y ∧
    (y * W + x) * 4 + c < W * H * 4 := by
  have hW : 0 < W := by omega
  refine ⟨by omega, by omega, ?_, ?_, ?_⟩
  · rw [Nat.mul_comm y W, Nat.mul_add_mod]
    exact Nat.mod_eq_of_lt hx
  · rw [Nat.mul_comm y W, Nat.mul_add_div hW, Nat.div_eq_of_lt hx]
    omega
  · have h1 : y * W + x < H * W := by nlinarith
    have h2 : (y * W + x) * 4 + c < (H * W) * 4 := by omega
    calc (y * W + x) * 4 + c < H * W * 4 := h2
    _ = W * H * 4 := by ring

/-- Pixel `(x, y)`, channel `c` of the resampling output: bilinear sample at
the homography image of the destination pixel when it lands in the
interpolable source region, white (255) otherwise. -/
theorem perspectiveOutput_data (imageData : Image) (srcCorners : List Point)
    (tw th x y c : ℕ) (hx : x < tw) (hy : y < th) (hc : c < 4) :
    (perspectiveOutput imageData srcCorners tw th).data ((y * tw + x) * 4 + c) =
      (match applyHomography ⟨(x : ℚ), (y : ℚ)⟩
          (calculateHomography
            [⟨0, 0⟩, ⟨(tw : ℚ), 0⟩, ⟨(tw : ℚ), (th : ℚ)⟩, ⟨0, (th : ℚ)⟩]
            srcCorners) with
      | some sp =>
          if inSourceBounds imageData sp then bilinearAt imageData sp c else 255
      | none => 255) := by
  obtain ⟨d1, d2, d3, d4, d5⟩ := pix_index_decode tw th x y c hx hy hc
  simp only [perspectiveOutput, d1, d2, d3, d4, if_pos d5]

/-- C6: `applyPerspectiveCorrection` with unspecified target dimensions
produces an output whose width is the rounded maximum of the top and bottom
edge lengths of the source corners, and whose height is the rounded maximum
of the left and right edge lengths (`derivedDims`, stated on squared lengths
through `ratRoundSqrt`/`ratMax` since rounding a square root is computed on
the radicand); every destination pixel whose homography-mapped source
coordinate falls outside the interpolable region `inSourceBounds` (or whose
homogeneous coordinate vanishes, which in JS produces non-finite coordinates
failing the same bounds test) is filled with white (255 in all four
channels), and every other pixel is the bilinear interpolation of the 4
neighbouring source pixels in its channel. -/
theorem applyPerspectiveCorrection_derived_dims_white_fill
    (imageData : Image) (srcCorners : List Point) (out : Image)
    (h : applyPerspectiveCorrection imageData srcCorners none none = some out) :
    (out.width = (derivedDims srcCorners).1 ∧
     out.height = (derivedDims srcCorners).2 ∧
     (derivedDims srcCorners).1 =
       ratRoundSqrt (ratMax
         (dist2 (srcCorners.getD 0 ⟨0, 0⟩) (srcCorners.getD 1 ⟨0, 0⟩))
         (dist2 (srcCorners.getD 3 ⟨0, 0⟩) (srcCorners.getD 2 ⟨0, 0⟩))) ∧
     (derivedDims srcCorners).2 =
       ratRoundSqrt (ratMax
         (dist2 (srcCorners.getD 0 ⟨0, 0⟩) (srcCorners.getD 3 ⟨0, 0⟩))
         (dist2 (srcCorners.getD 1 ⟨0, 0⟩) (srcCorners.getD 2 ⟨0, 0⟩)))) ∧
    (∀ x y c, x < out.width → y < out.height → c < 4 →
      out.data ((y * out.width + x) * 4 + c) =
        (match applyHomography ⟨(x : ℚ), (y : ℚ)⟩
            (calculateHomography
              [⟨0, 0⟩, ⟨(out.width : ℚ), 0⟩, ⟨(out.width : ℚ), (out.height : ℚ)⟩,
               ⟨0, (out.height : ℚ)⟩] srcCorners) with
        | some sp =>
            if inSourceBounds imageData sp then bilinearAt imageData sp c
            else 255
        | none => 255)) := by
  rw [show applyPerspectiveCorrection imageData srcCorners none none =
      (if (derivedDims srcCorners).1 = 0 ∨ (derivedDims srcCorners).2 = 0
       then none
       else some (perspectiveOutput imageData srcCorners
         (derivedDims srcCorners).1 (derivedDims srcCorners).2)) from rfl] at h
  by_cases hzero : (derivedDims srcCorners).1 = 0 ∨ (derivedDims srcCorners).2 = 0
  · rw [if_pos hzero] at h
    exact absurd h (by simp)
  · rw [if_neg hzero] at h
    have hout : perspectiveOutput imageData srcCorners
        (derivedDims srcCorners).1 (derivedDims srcCorners).2 = out :=
      Option.some.inj h
    subst hout
    refine ⟨⟨rfl, rfl, rfl, rfl⟩, ?_⟩
    intro x y c hx hy hc
    exact perspectiveOutput_data imageData srcCorners _ _ x y c hx hy hc

/-- The derived dimensions of the concrete square `corners4`. -/
theorem derivedDims_corners4 : derivedDims corners4 = (2, 2) := by
  have hs : intSqrt 4 = 2 := by decide
  have ht : Int.toNat 4 = 4 := rfl
  have hfl : (⌊(4 : ℚ)⌋ : ℤ) = 4 := by norm_num
  simp only [derivedDims, corners4, dist2, ratMax, ratRoundSqrt]
  norm_num [hfl, ht, hs]

/-- Witness for `applyPerspectiveCorrection_derived_dims_white_fill`: on the
2×2 axis-aligned square inside `img4` the derived output is 2×2. -/
theorem applyPerspectiveCorrection_derived_dims_white_fill_witness :
    c6Out.width = 2 ∧ c6Out.height = 2 := by
  have h : applyPerspectiveCorrection img4 corners4 none none =
      some (perspectiveOutput img4 corners4 2 2) := by
    rw [show applyPerspectiveCorrection img4 corners4 none none =
        (if (derivedDims corners4).1 = 0 ∨ (derivedDims corners4).2 = 0
         then none
         else some (perspectiveOutput img4 corners4
           (derivedDims corners4).1 (derivedDims corners4).2)) from rfl,
      derivedDims_corners4]
    norm_num
  have hc6 : applyPerspectiveCorrection img4 corners4 none none = some c6Out := by
    rw [c6Out, h]
    rfl
  obtain ⟨⟨hw, hh, _, _⟩, _⟩ :=
    applyPerspectiveCorrection_derived_dims_white_fill img4 corners4 c6Out hc6
  rw [hw, hh, derivedDims_corners4]
  exact ⟨rfl, rfl⟩

/-! ## C2: the quadrilateral selection of detectPage -/

/-- The shoelace area of the empty polygon is 0. -/
theorem calculatePolygonArea_nil : calculatePolygonArea [] = 0 := by
  simp [calculatePolygonArea]

/-- The best-area fold of `findBestQuadrilateral` only ever holds a quadruple
taken from the candidate list (or the initial empty one). -/
theorem bestQuadFold_len (cl : List (List Point)) (st : ℚ × List Point)
    (h1 : st.2 = [] ∨ st.2.length = 4) (h2 : ∀ q ∈ cl, q.length = 4) :
    ((cl.foldl (fun st quad =>
        if calculatePolygonArea quad > st.1 then (calculatePolygonArea quad, quad)
        else st) st).2 = [] ∨
      (cl.foldl (fun st quad =>
        if calculatePolygonArea quad > st.1 then (calculatePolygonArea quad, quad)
        else st) st).2.length = 4) := by
  induction cl generalizing st with
  | nil => exact h1
  | cons c tl ih =>
    simp only [List.foldl_cons]
    by_cases hc : calculatePolygonArea c > st.1
    · rw [if_pos hc]
      exact ih _ (Or.inr (h2 c (by simp))) (fun q hq => h2 q (by simp [hq]))
    · rw [if_neg hc]
      exact ih _ h1 (fun q hq => h2 q (by simp [hq]))

/-- Every quadruple enumerated by `findBestQuadrilateral` has 4 vertices. -/
theorem findBestQuadrilateral_len (points : List Point) :
    findBestQuadrilateral points = [] ∨
      (findBestQuadrilateral points).length = 4 := by
  have hcombos : ∀ q ∈ (List.range points.length).flatMap (fun i =>
      (List.range points.length).flatMap (fun j =>
        (List.range points.length).flatMap (fun k =>
          (List.range points.length).filterMap (fun l =>
            if i < j ∧ j < k ∧ k < l then
              some [points.getD i ⟨0, 0⟩, points.getD j ⟨0, 0⟩,
                    points.getD k ⟨0, 0⟩, points.getD l ⟨0, 0⟩]
            else none)))), q.length = 4 := by
    intro q hq
    simp only [List.mem_flatMap, List.mem_filterMap] at hq
    obtain ⟨i, _, j, _, k, _, l, _, hql⟩ := hq
    split at hql
    · cases hql
      rfl
    · cases hql
  exact bestQuadFold_len _ ((0 : ℚ), ([] : List Point)) (Or.inl rfl) hcombos

/-- A quadrilateral produced by `findQuadrilateral` has 4 vertices unless it
is the empty fallback of `findBestQuadrilateral`. -/
theorem findQuadrilateral_len (approxFn : List Point → List Point)
    (contour : List Point) (q : List Point)
    (h : findQuadrilateral approxFn contour = some q) :
    q.length = 4 ∨ q = [] := by
  rw [findQuadrilateral] at h
  split_ifs at h with h4 hgt
  · exact Or.inl (Option.some.inj h ▸ h4)
  · rcases findBestQuadrilateral_len (approxFn (convexHull contour)) with he | hl
    · exact Or.inr (by rw [← Option.some.inj h, he])
    · exact Or.inl (by rw [← Option.some.inj h]; exact hl)

/-- A qualifying area ratio with a positive minimum fraction forces a
positive area (and a positive frame area). -/
theorem area_pos_of_qualifies {m F a : ℚ} (hm : 0 < m) (hF : 0 ≤ F)
    (h : m ≤ a / F) : 0 < a ∧ 0 < F := by
  rcases eq_or_lt_of_le hF with hF0 | hFpos
  · rw [← hF0, div_zero] at h
    exact absurd h (by linarith)
  · have : 0 < a / F := lt_of_lt_of_le hm h
    exact ⟨(div_pos_iff.mp this).resolve_right (fun ⟨_, hb⟩ => absurd hFpos (by linarith)) |>.1, hFpos⟩

/-- Behaviour of the contour-selection fold of `detectPage`: the running best
is `none` exactly when no contour so far yields a qualifying quadrilateral,
and otherwise it is a qualifying quadrilateral of maximal area whose area is
tracked in the second component. -/
theorem detect_foldl_spec (A : List Point → List Point) (F m : ℚ)
    (hm : 0 < m) (hF : 0 ≤ F) (cs : List (List Point)) :
    (((cs.foldl (detectStep A F m) (none, 0)).1 = none →
        (cs.foldl (detectStep A F m) (none, 0)).2 = 0) ∧
     ((cs.foldl (detectStep A F m) (none, 0)).1 = none ↔
      ∀ c ∈ cs, ∀ q, findQuadrilateral A c = some q →
        ¬ (m ≤ calculatePolygonArea q / F))) ∧
    (∀ bq, (cs.foldl (detectStep A F m) (none, 0)).1 = some bq →
      (∃ c ∈ cs, findQuadrilateral A c = some bq) ∧
      m ≤ calculatePolygonArea bq / F ∧
      (cs.foldl (detectStep A F m) (none, 0)).2 = calculatePolygonArea bq ∧
      0 < calculatePolygonArea bq ∧
      (∀ c ∈ cs, ∀ q, findQuadrilateral A c = some q →
        m ≤ calculatePolygonArea q / F →
        calculatePolygonArea q ≤ calculatePolygonArea bq)) := by
  induction cs using List.reverseRecOn with
  | nil =>
    refine ⟨⟨fun _ => rfl, ?_⟩, ?_⟩
    · simp
    · intro bq hbq
      simp at hbq
  | append_singleton cs c ih =>
    obtain ⟨⟨ihz, ihiff⟩, ihsome⟩ := ih
    have hfold : ((cs ++ [c]).foldl (detectStep A F m) (none, 0)) =
        detectStep A F m (cs.foldl (detectStep A F m) (none, 0)) c := by
      rw [List.foldl_append, List.foldl_cons, List.foldl_nil]
    rw [hfold]
    rcases hq : findQuadrilateral A c with _ | q
    · -- the new contour yields no quadrilateral; the state is unchanged
      have hstep : detectStep A F m (cs.foldl (detectStep A F m) (none, 0)) c =
          cs.foldl (detectStep A F m) (none, 0) := by
        rw [detectStep, hq]
      rw [hstep]
      refine ⟨⟨ihz, ?_⟩, ?_⟩
      · rw [ihiff]
        constructor
        · intro hall c' hc' q' hq'
          rcases List.mem_append.mp hc' with hin | hin
          · exact hall c' hin q' hq'
          · rw [List.mem_singleton.mp hin, hq] at hq'
            cases hq'
        · intro hall c' hc' q' hq'
          exact hall c' (List.mem_append.mpr (Or.inl hc')) q' hq'
      · intro bq hbq
        obtain ⟨⟨c', hc', hqc'⟩, hqual, harea, hpos, hmax⟩ := ihsome bq hbq
        refine ⟨⟨c', List.mem_append.mpr (Or.inl hc'), hqc'⟩, hqual, harea, hpos, ?_⟩
        intro c'' hc'' q'' hq'' hqual''
        rcases List.mem_append.mp hc'' with hin | hin
        · exact hmax c'' hin q'' hq'' hqual''
        · rw [List.mem_singleton.mp hin, hq] at hq''
          cases hq''
    · -- the new contour yields the quadrilateral q
      have hstep : detectStep A F m (cs.foldl (detectStep A F m) (none, 0)) c =
          (if calculatePolygonArea q / F ≥ m ∧
              calculatePolygonArea q > (cs.foldl (detectStep A F m) (none, 0)).2
           then (some q, calculatePolygonArea q)
           else cs.foldl (detectStep A F m) (none, 0)) := by
        rw [detectStep, hq]
      rw [hstep]
      by_cases hcond : calculatePolygonArea q / F ≥ m ∧
          calculatePolygonArea q > (cs.foldl (detectStep A F m) (none, 0)).2
      · rw [if_pos hcond]
        have hposq : 0 < calculatePolygonArea q := by
          rcases hold : (cs.foldl (detectStep A F m) (none, 0)).1 with _ | bq0
          · have := ihz hold
            rw [this] at hcond
            exact hcond.2
          · obtain ⟨_, _, harea, hpos, _⟩ := ihsome bq0 hold
            rw [harea] at hcond
            linarith [hcond.2]
        refine ⟨⟨?_, ?_⟩, ?_⟩
        · intro habs
          cases habs
        · constructor
          · intro habs
            cases habs
          · intro hall
            exact absurd hcond.1 (hall c (List.mem_append.mpr (Or.inr (by simp)))
              q hq)
        · intro bq hbq
          have hbqq : bq = q := by
            simpa using hbq.symm
          subst hbqq
          refine ⟨⟨c, List.mem_append.mpr (Or.inr (by simp)), hq⟩, hcond.1,
            rfl, hposq, ?_⟩
          intro c'' hc'' q'' hq'' hqual''
          rcases List.mem_append.mp hc'' with hin | hin
          · rcases hold : (cs.foldl (detectStep A F m) (none, 0)).1 with _ | bq0
            · exact absurd hqual'' ((ihiff.mp hold) c'' hin q'' hq'')
            · obtain ⟨_, _, harea, _, hmax⟩ := ihsome bq0 hold
              have := hmax c'' hin q'' hq'' hqual''
              rw [harea] at hcond
              linarith [hcond.2]
          · rw [List.mem_singleton.mp hin, hq] at hq''
            have hq2 : q'' = bq := by simpa using hq''.symm
            rw [hq2]
      · rw [if_neg hcond]
        have hnotqual_or : ¬ (m ≤ calculatePolygonArea q / F) ∨
            calculatePolygonArea q ≤ (cs.foldl (detectStep A F m) (none, 0)).2 := by
          by_cases h1 : m ≤ calculatePolygonArea q / F
          · right
            by_contra h2
            exact hcond ⟨h1, by linarith⟩
          · exact Or.inl h1
        refine ⟨⟨ihz, ?_⟩, ?_⟩
        · rw [ihiff]
          constructor
          · intro hall c' hc' q' hq'
            rcases List.mem_append.mp hc' with hin | hin
            · exact hall c' hin q' hq'
            · rw [List.mem_singleton.mp hin, hq] at hq'
              have hq'q : q' = q := by simpa using hq'.symm
              subst hq'q
              rcases hnotqual_or with hn | hle
              · exact hn
              · intro habs
                -- with a qualifying q and a `none` state the tracked area is 0
                have hz : (cs.foldl (detectStep A F m) (none, 0)).2 = 0 := by
                  apply ihz
                  rw [ihiff]
                  exact hall
                rw [hz] at hle
                have := (area_pos_of_qualifies hm hF habs).1
                linarith
          · intro hall c' hc' q' hq'
            exact hall c' (List.mem_append.mpr (Or.inl hc')) q' hq'
        · intro bq hbq
          obtain ⟨⟨c', hc', hqc'⟩, hqual, harea, hpos, hmax⟩ := ihsome bq hbq
          refine ⟨⟨c', List.mem_append.mpr (Or.inl hc'), hqc'⟩, hqual, harea,
            hpos, ?_⟩
          intro c'' hc'' q'' hq'' hqual''
          rcases List.mem_append.mp hc'' with hin | hin
          · exact hmax c'' hin q'' hq'' hqual''
          · rw [List.mem_singleton.mp hin, hq] at hq''
            have hq''q : q'' = q := by simpa using hq''.symm
            subst hq''q
            rcases hnotqual_or with hn | hle
            · exact absurd hqual'' hn
            · rw [harea] at hle
              exact hle

/-- The index fold of `minSumIdx` either keeps the initial index or returns
an index from the scanned list. -/
theorem minSumFold_mem (sorted : List Point) (l : List ℕ) (st : ℕ × ℚ) :
    (l.foldl (fun (st : ℕ × ℚ) i =>
        if (sorted.getD i ⟨0, 0⟩).x + (sorted.getD i ⟨0, 0⟩).y < st.2
        then (i, (sorted.getD i ⟨0, 0⟩).x + (sorted.getD i ⟨0, 0⟩).y)
        else st) st).1 = st.1 ∨
      (l.foldl (fun (st : ℕ × ℚ) i =>
        if (sorted.getD i ⟨0, 0⟩).x + (sorted.getD i ⟨0, 0⟩).y < st.2
        then (i, (sorted.getD i ⟨0, 0⟩).x + (sorted.getD i ⟨0, 0⟩).y)
        else st) st).1 ∈ l := by
  induction l generalizing st with
  | nil => exact Or.inl rfl
  | cons i tl ih =>
    simp only [List.foldl_cons]
    by_cases hc : (sorted.getD i ⟨0, 0⟩).x + (sorted.getD i ⟨0, 0⟩).y < st.2
    · rw [if_pos hc]
      rcases ih (i, (sorted.getD i ⟨0, 0⟩).x + (sorted.getD i ⟨0, 0⟩).y) with h | h
      · right
        rw [h]
        exact List.mem_cons_self i tl
      · right
        exact List.mem_cons_of_mem i h
    · rw [if_neg hc]
      rcases ih st with h | h
      · exact Or.inl h
      · right
        exact List.mem_cons_of_mem i h

/-- The top-left index chosen by `orderCorners` is in range. -/
theorem minSumIdx_lt (sorted : List Point) (h : sorted ≠ []) :
    minSumIdx sorted < sorted.length := by
  have hm := minSumFold_mem sorted ((List.range sorted.length).drop 1)
    (0, (sorted.getD 0 ⟨0, 0⟩).x + (sorted.getD 0 ⟨0, 0⟩).y)
  rcases hm with h0 | hmem
  · have hz : minSumIdx sorted = 0 := h0
    rw [hz]
    exact List.length_pos.mpr h
  · have hin : minSumIdx sorted ∈ (List.range sorted.length).drop 1 := hmem
    exact List.mem_range.mp (List.mem_of_mem_drop hin)

/-- A list of length 4 is a literal 4-element list. -/
theorem list_len4 {α : Type} (l : List α) (h : l.length = 4) :
    ∃ a b c d, l = [a, b, c, d] := by
  rcases l with _ | ⟨a, _ | ⟨b, _ | ⟨c, _ | ⟨d, _ | ⟨e, t⟩⟩⟩⟩⟩
  · exact absurd h (by simp)
  · exact absurd h (by simp)
  · exact absurd h (by simp)
  · exact absurd h (by simp)
  · exact ⟨a, b, c, d, rfl⟩
  · refine absurd h ?_
    simp only [List.length_cons]
    omega

/-- `orderCorners` permutes its input whenever the input has 4 points: the
stable angular sort permutes, and the rotation by the top-left index (taken
modulo 4) permutes again. -/
theorem orderCorners_perm (corners : List Point) (h4 : corners.length = 4) :
    (orderCorners corners).Perm corners := by
  have hperm : (corners.insertionSort (angleRel (centroid4 corners))).Perm corners :=
    List.perm_insertionSort _ _
  have hlen : (corners.insertionSort (angleRel (centroid4 corners))).length = 4 :=
    hperm.length_eq.trans h4
  have hne : corners.insertionSort (angleRel (centroid4 corners)) ≠ [] := by
    intro habs
    rw [habs] at hlen
    exact absurd hlen (by simp)
  have ht := minSumIdx_lt _ hne
  rw [hlen] at ht
  obtain ⟨a, b, c, d, hs⟩ := list_len4 _ hlen
  have horder : orderCorners corners =
      [(corners.insertionSort (angleRel (centroid4 corners))).getD
         (minSumIdx (corners.insertionSort (angleRel (centroid4 corners)))) ⟨0, 0⟩,
       (corners.insertionSort (angleRel (centroid4 corners))).getD
         ((minSumIdx (corners.insertionSort (angleRel (centroid4 corners))) + 1) % 4) ⟨0, 0⟩,
       (corners.insertionSort (angleRel (centroid4 corners))).getD
         ((minSumIdx (corners.insertionSort (angleRel (centroid4 corners))) + 2) % 4) ⟨0, 0⟩,
       (corners.insertionSort (angleRel (centroid4 corners))).getD
         ((minSumIdx (corners.insertionSort (angleRel (centroid4 corners))) + 3) % 4) ⟨0, 0⟩] :=
    rfl
  have hperm4 : (([a, b, c, d] : List Point)).Perm corners := hs ▸ hperm
  rw [horder, hs]
  rw [hs] at ht
  refine List.Perm.trans ?_ hperm4
  have hcases : minSumIdx ([a, b, c, d] : List Point) = 0 ∨
      minSumIdx ([a, b, c, d] : List Point) = 1 ∨
      minSumIdx ([a, b, c, d] : List Point) = 2 ∨
      minSumIdx ([a, b, c, d] : List Point) = 3 := by omega
  rcases hcases with h | h | h | h <;> rw [h]
  · exact List.Perm.refl _
  · show (([b, c, d] : List Point) ++ [a]).Perm ([a] ++ [b, c, d])
    exact List.perm_append_comm
  · show (([c, d] : List Point) ++ [a, b]).Perm ([a, b] ++ [c, d])
    exact List.perm_append_comm
  · show (([d] : List Point) ++ [a, b, c]).Perm ([a, b, c] ++ [d])
    exact List.perm_append_comm

/-- C2: `detectPage` returns `null` exactly when no contour yields a
quadrilateral whose area is at least `minArea` times the frame area; when one
does, the returned corners are the ordering (a permutation) of a qualifying
quadrilateral of maximal area.  The hypothesis `0 < minArea` (satisfied by
the default 0.2 and every caller in the repository) is needed for the
if-and-only-if: with `minArea ≤ 0` a qualifying quadrilateral of area 0 is
still skipped by the strict `area > maxArea` test against the initial 0. -/
theorem detectPage_none_iff_best_quad (approxFn : List Point → List Point)
    (confFn : List Point → ℚ) (now : ℚ) (img : Image)
    (options : PageDetectionOptions)
    (hm : 0 < (resolveOptions options).minArea) :
    (detectPage approxFn confFn now img options = none ↔
      ∀ c ∈ (findContours (detectEdges img) none).map
          (List.map (fun p => Point.mk p.1 p.2)),
        ∀ q, findQuadrilateral approxFn c = some q →
          ¬ ((resolveOptions options).minArea ≤
              calculatePolygonArea q / ((img.width : ℚ) * img.height))) ∧
    (∀ d, detectPage approxFn confFn now img options = some d →
      ∃ bq,
        (∃ c ∈ (findContours (detectEdges img) none).map
            (List.map (fun p => Point.mk p.1 p.2)),
          findQuadrilateral approxFn c = some bq) ∧
        (resolveOptions options).minArea ≤
          calculatePolygonArea bq / ((img.width : ℚ) * img.height) ∧
        (∀ c ∈ (findContours (detectEdges img) none).map
            (List.map (fun p => Point.mk p.1 p.2)),
          ∀ q, findQuadrilateral approxFn c = some q →
            (resolveOptions options).minArea ≤
              calculatePolygonArea q / ((img.width : ℚ) * img.height) →
            calculatePolygonArea q ≤ calculatePolygonArea bq) ∧
        d.corners = orderCorners bq ∧ d.corners.Perm bq) := by
  have hF : (0 : ℚ) ≤ (img.width : ℚ) * img.height := by positivity
  obtain ⟨⟨_, hiff⟩, hsome⟩ := detect_foldl_spec approxFn
    ((img.width : ℚ) * img.height) (resolveOptions options).minArea hm hF
    ((findContours (detectEdges img) none).map (List.map (fun p => Point.mk p.1 p.2)))
  have hdp : detectPage approxFn confFn now img options =
      (match (((findContours (detectEdges img) none).map
          (List.map (fun p => Point.mk p.1 p.2))).foldl
          (detectStep approxFn ((img.width : ℚ) * img.height)
            (resolveOptions options).minArea) (none, 0)).1 with
       | none => none
       | some bestQuad =>
         some { corners := orderCorners bestQuad
                confidence := confFn (orderCorners bestQuad)
                frameIndex := 0
                timestamp := now
                qualityScore := 0 }) := rfl
  rcases hb : (((findContours (detectEdges img) none).map
      (List.map (fun p => Point.mk p.1 p.2))).foldl
      (detectStep approxFn ((img.width : ℚ) * img.height)
        (resolveOptions options).minArea) (none, 0)).1 with _ | bq
  · rw [hb] at hdp
    refine ⟨?_, ?_⟩
    · rw [hdp]
      simp only [true_iff]
      exact hiff.mp hb
    · intro d hd
      rw [hdp] at hd
      cases hd
  · rw [hb] at hdp
    obtain ⟨⟨c', hc', hqc'⟩, hqual, _, hpos, hmax⟩ := hsome bq hb
    refine ⟨?_, ?_⟩
    · rw [hdp]
      constructor
      · intro habs
        cases habs
      · intro hall
        exact absurd hqual (hall c' hc' bq hqc')
    · intro d hd
      rw [hdp] at hd
      have hdval : d = { corners := orderCorners bq
                         confidence := confFn (orderCorners bq)
                         frameIndex := 0
                         timestamp := now
                         qualityScore := 0 } := (Option.some.inj hd).symm
      have h4 : bq.length = 4 := by
        rcases findQuadrilateral_len approxFn c' bq hqc' with h4 | hnil
        · exact h4
        · rw [hnil, calculatePolygonArea_nil] at hpos
          exact absurd hpos (by norm_num)
      refine ⟨bq, ⟨c', hc', hqc'⟩, hqual, hmax, ?_, ?_⟩
      · rw [hdval]
      · rw [hdval]
        exact orderCorners_perm bq h4

/-- Witness for `detectPage_none_iff_best_quad` at the default options
(`minArea` 0.2 > 0) on the concrete uniform frame. -/
theorem detectPage_none_iff_best_quad_witness :
    (detectPage (fun l => l) (fun _ => 0) 0 uniformGray {} = none ↔
      ∀ c ∈ (findContours (detectEdges uniformGray) none).map
          (List.map (fun p => Point.mk p.1 p.2)),
        ∀ q, findQuadrilateral (fun l => l) c = some q →
          ¬ ((resolveOptions {}).minArea ≤
              calculatePolygonArea q /
                ((uniformGray.width : ℚ) * uniformGray.height))) ∧
    (∀ d, detectPage (fun l => l) (fun _ => 0) 0 uniformGray {} = some d →
      ∃ bq,
        (∃ c ∈ (findContours (detectEdges uniformGray) none).map
            (List.map (fun p => Point.mk p.1 p.2)),
          findQuadrilateral (fun l => l) c = some bq) ∧
        (resolveOptions {}).minArea ≤
          calculatePolygonArea bq /
            ((uniformGray.width : ℚ) * uniformGray.height) ∧
        (∀ c ∈ (findContours (detectEdges uniformGray) none).map
            (List.map (fun p => Point.mk p.1 p.2)),
          ∀ q, findQuadrilateral (fun l => l) c = some q →
            (resolveOptions {}).minArea ≤
              calculatePolygonArea q /
                ((uniformGray.width : ℚ) * uniformGray.height) →
            calculatePolygonArea q ≤ calculatePolygonArea bq) ∧
        d.corners = orderCorners bq ∧ d.corners.Perm bq) :=
  detectPage_none_iff_best_quad (fun l => l) (fun _ => 0) 0 uniformGray {}
    (by norm_num [resolveOptions, DEFAULT_OPTIONS])

/-! ## The flood fill of findContours: basic lemmas -/

/-- The row-major scan enumerates exactly the in-bounds pixels. -/
theorem mem_scanPixels (img : Image) (q : Pix) :
    q ∈ scanPixels img ↔ validPix img q := by
  simp only [scanPixels, List.mem_flatMap, List.mem_range, List.mem_map, validPix]
  constructor
  · rintro ⟨y, hy, x, hx, rfl⟩
    exact ⟨hx, hy⟩
  · rintro ⟨h1, h2⟩
    exact ⟨q.2, h2, q.1, h1, rfl⟩

/-- The scan has one entry per pixel. -/
theorem scanPixels_length (img : Image) :
    (scanPixels img).length = img.height * img.width := by
  have hconst : ∀ (n w : ℕ), ((List.range n).map (fun _ : ℕ => w)).sum = n * w := by
    intro n w
    induction n with
    | zero => simp
    | succ n ih =>
      rw [List.range_succ]
      simp only [List.map_append, List.sum_append, List.map_cons, List.map_nil,
        List.sum_cons, List.sum_nil, ih]
      ring
  simp only [scanPixels]
  rw [List.length_flatMap]
  simp only [Function.comp_def, List.length_map, List.length_range]
  exact hconst img.height img.width

/-- Bounding the length of a `flatMap` by a pointwise bound. -/
theorem length_flatMap_le {α β : Type} (l : List α) (f : α → List β) (k : ℕ)
    (h : ∀ a, (f a).length ≤ k) : (l.flatMap f).length ≤ l.length * k := by
  induction l with
  | nil => simp
  | cons a tl ih =>
    simp only [List.flatMap_cons, List.length_append, List.length_cons]
    calc (f a).length + (tl.flatMap f).length ≤ k + tl.length * k := by
          exact Nat.add_le_add (h a) ih
      _ = (tl.length + 1) * k := by ring

/-- A pixel has at most 9 neighbour entries (8 actual neighbours; the centre
case contributes nothing). -/
theorem pixelNeighbors_length_le (img : Image) (p : Pix) :
    (pixelNeighbors img p).length ≤ 9 := by
  have hinner : ∀ dy : ℤ, ((([-1, 0, 1] : List ℤ).flatMap fun dx =>
      if dx = 0 ∧ dy = 0 then []
      else
        let nx := (p.1 : ℤ) + dx
        let ny := (p.2 : ℤ) + dy
        if 0 ≤ nx ∧ nx < img.width ∧ 0 ≤ ny ∧ ny < img.height then
          [(nx.toNat, ny.toNat)]
        else [])).length ≤ 3 := by
    intro dy
    have hone : ∀ dx : ℤ, ((if dx = 0 ∧ dy = 0 then ([] : List Pix)
        else
          let nx := (p.1 : ℤ) + dx
          let ny := (p.2 : ℤ) + dy
          if 0 ≤ nx ∧ nx < img.width ∧ 0 ≤ ny ∧ ny < img.height then
            [(nx.toNat, ny.toNat)]
          else [])).length ≤ 1 := by
      intro dx
      dsimp only
      split_ifs <;> simp
    calc (_ : ℕ) ≤ ([-1, 0, 1] : List ℤ).length * 1 := length_flatMap_le _ _ 1 hone
      _ = 3 := by simp
  calc (pixelNeighbors img p).length ≤ ([-1, 0, 1] : List ℤ).length * 3 :=
        length_flatMap_le _ _ 3 hinner
    _ = 9 := by simp

/-- Membership in the neighbour list is exactly 8-adjacency plus bounds. -/
theorem mem_pixelNeighbors (img : Image) (pt q : Pix) :
    q ∈ pixelNeighbors img pt ↔ adjPix pt q ∧ validPix img q := by
  simp only [pixelNeighbors, List.mem_flatMap]
  constructor
  · rintro ⟨dy, hdy, dx, hdx, hq⟩
    simp only [List.mem_cons, List.not_mem_nil, or_false] at hdy hdx
    split_ifs at hq with hc hb
    · exact absurd hq (List.not_mem_nil q)
    · simp only [List.mem_singleton] at hq
      subst hq
      obtain ⟨hx0, hxw, hy0, hyh⟩ := hb
      refine ⟨⟨?_, ?_, ?_⟩, ?_, ?_⟩
      · intro habs
        apply hc
        have hfst := congrArg Prod.fst habs
        have hsnd := congrArg Prod.snd habs
        dsimp only at hfst hsnd
        exact ⟨by omega, by omega⟩
      · dsimp only
        rcases hdx with h | h | h <;> subst h <;> omega
      · dsimp only
        rcases hdy with h | h | h <;> subst h <;> omega
      · dsimp only
        omega
      · dsimp only
        omega
    · exact absurd hq (List.not_mem_nil q)
  · rintro ⟨⟨hne, hax, hay⟩, hvx, hvy⟩
    refine ⟨(q.2 : ℤ) - pt.2, ?_, (q.1 : ℤ) - pt.1, ?_, ?_⟩
    · simp only [List.mem_cons, List.not_mem_nil, or_false]
      omega
    · simp only [List.mem_cons, List.not_mem_nil, or_false]
      omega
    · rw [if_neg, if_pos]
      · simp only [List.mem_singleton]
        have h1 : ((pt.1 : ℤ) + ((q.1 : ℤ) - pt.1)).toNat = q.1 := by omega
        have h2 : ((pt.2 : ℤ) + ((q.2 : ℤ) - pt.2)).toNat = q.2 := by omega
        rw [h1, h2]
      · refine ⟨by omega, by omega, by omega, by omega⟩
      · rintro ⟨h1, h2⟩
        apply hne
        have hx : pt.1 = q.1 := by omega
        have hy : pt.2 = q.2 := by omega
        exact Prod.ext hx hy

/-- An edge pixel is in bounds. -/
theorem isEdgeAt_valid (img : Image) (t : ℚ) (p : Pix)
    (h : isEdgeAt img t p = true) : validPix img p := by
  simp only [isEdgeAt, Bool.and_eq_true, decide_eq_true_eq] at h
  exact h.1

/-- An edge pixel's edge-map value strictly exceeds the threshold. -/
theorem isEdgeAt_gt (img : Image) (t : ℚ) (p : Pix)
    (h : isEdgeAt img t p = true) :
    (img.data ((p.2 * img.width + p.1) * 4) : ℚ) > t := by
  simp only [isEdgeAt, Bool.and_eq_true, decide_eq_true_eq] at h
  exact h.2

/-- One flood-fill step is symmetric. -/
theorem edgeStep_symm (img : Image) (t : ℚ) {a b : Pix}
    (h : edgeStep img t a b) : edgeStep img t b a := by
  obtain ⟨h1, h2, hne, hx, hy⟩ := h
  exact ⟨h2, h1, fun habs => hne habs.symm, by omega, by omega⟩

/-- 8-connected reachability is symmetric. -/
theorem ReachE_symm (img : Image) (t : ℚ) {a b : Pix}
    (h : ReachE img t a b) : ReachE img t b a := by
  induction h with
  | refl => exact Relation.ReflTransGen.refl
  | tail _ hbc ih => exact Relation.ReflTransGen.head (edgeStep_symm img t hbc) ih

/-- Counting unvisited pixels strictly drops when a present pixel is added
to the visited set. -/
theorem countP_unvisited_drop (visited : List Pix) (pt : Pix) (l : List Pix)
    (hmem : pt ∈ l) (hnv : pt ∉ visited) :
    l.countP (fun q => decide (q ∉ pt :: visited)) + 1 ≤
      l.countP (fun q => decide (q ∉ visited)) := by
  induction l with
  | nil => exact absurd hmem (List.not_mem_nil pt)
  | cons a tl ih =>
    rw [List.countP_cons, List.countP_cons]
    have hmono : tl.countP (fun q => decide (q ∉ pt :: visited)) ≤
        tl.countP (fun q => decide (q ∉ visited)) := by
      apply List.countP_mono_left
      intro a _ ha
      simp only [decide_eq_true_eq] at ha ⊢
      intro habs
      exact ha (List.mem_cons_of_mem pt habs)
    by_cases hapt : a = pt
    · subst hapt
      have h1 : (decide (a ∉ a :: visited) : Bool) = false := by
        simp
      have h2 : (decide (a ∉ visited) : Bool) = true := by
        simpa using hnv
      rw [h1, h2]
      simp only [Bool.false_eq_true, if_false, eq_self_iff_true, if_true]
      omega
    · have htl : pt ∈ tl := by
        rcases List.mem_cons.mp hmem with h | h
        · exact absurd h.symm hapt
        · exact h
      have hcond : ((if (decide (a ∉ pt :: visited) : Bool) = true then 1 else 0) : ℕ) ≤
          if (decide (a ∉ visited) : Bool) = true then 1 else 0 := by
        by_cases hv : a ∉ visited
        · simp [hv]
          split_ifs
          simp
        · have : (decide (a ∉ pt :: visited) : Bool) = false := by
            simp only [decide_eq_false_iff_not, not_not]
            simp only [not_not] at hv
            exact List.mem_cons_of_mem pt hv
          rw [this]
          simp
      have := ih htl
      omega

/-- A list of pixels closed under stepping to adjacent edge pixels contains
every pixel 8-connected to one of its members. -/
theorem closed_reach (img : Image) (t : ℚ) (V : List Pix)
    (hcl : ∀ v ∈ V, ∀ q, isEdgeAt img t q = true →
      q ∈ pixelNeighbors img v → q ∈ V)
    {a b : Pix} (hr : ReachE img t a b) (ha : a ∈ V) : b ∈ V := by
  induction hr with
  | refl => exact ha
  | tail _ hbc ih =>
    rename_i b' c' _
    obtain ⟨_, hec, hadj⟩ := hbc
    exact hcl b' ih c' hec
      ((mem_pixelNeighbors img b' c').mpr ⟨hadj, isEdgeAt_valid img t c' hec⟩)

/-- Full specification of one flood fill: when every stack entry is an edge
pixel reachable from the seed `p`, the visited set is closed under stepping
to adjacent edge pixels modulo the stack, and the fuel covers the stack plus
nine times the unvisited pixel count, the trace appends a duplicate-free
block `new` of reachable, previously unvisited edge pixels to the contour,
prepends exactly that block (reversed) to the visited set, leaves the final
visited set closed under stepping to adjacent edge pixels, and buries every
stack entry in the final visited set. -/
theorem traceContour_spec (img : Image) (t : ℚ) (p : Pix) :
    ∀ (fuel : ℕ) (visited stack contour : List Pix),
    (∀ q ∈ stack, isEdgeAt img t q = true ∧ ReachE img t p q) →
    (∀ v ∈ visited, ∀ q, isEdgeAt img t q = true →
      q ∈ pixelNeighbors img v → q ∈ visited ∨ q ∈ stack) →
    stack.length + 9 * (scanPixels img).countP (fun q => decide (q ∉ visited)) ≤ fuel →
    ∃ new : List Pix,
      (traceContour img t fuel visited stack contour).2 = contour ++ new ∧
      (traceContour img t fuel visited stack contour).1 = new.reverse ++ visited ∧
      (∀ q ∈ new, isEdgeAt img t q = true ∧ ReachE img t p q ∧ q ∉ visited) ∧
      new.Nodup ∧
      (∀ v ∈ (traceContour img t fuel visited stack contour).1, ∀ q,
        isEdgeAt img t q = true → q ∈ pixelNeighbors img v →
        q ∈ (traceContour img t fuel visited stack contour).1) ∧
      (∀ q ∈ stack, q ∈ (traceContour img t fuel visited stack contour).1) := by
  intro fuel
  induction fuel with
  | zero =>
    intro visited stack contour hstack hclosure hbudget
    have hlen : stack.length = 0 := by omega
    rw [List.length_eq_zero] at hlen
    subst hlen
    have h0 : traceContour img t 0 visited [] contour = (visited, contour) := rfl
    rw [h0]
    refine ⟨[], by simp, by simp, by simp, List.nodup_nil, ?_, by simp⟩
    intro v hv q hq hnbr
    rcases hclosure v hv q hq hnbr with h | h
    · exact h
    · exact absurd h (List.not_mem_nil q)
  | succ fuel ih =>
    intro visited stack contour hstack hclosure hbudget
    rcases stack with _ | ⟨point, rest⟩
    · have h0 : traceContour img t (fuel + 1) visited [] contour =
          (visited, contour) := rfl
      rw [h0]
      refine ⟨[], by simp, by simp, by simp, List.nodup_nil, ?_, by simp⟩
      intro v hv q hq hnbr
      rcases hclosure v hv q hq hnbr with h | h
      · exact h
      · exact absurd h (List.not_mem_nil q)
    · have h0 : traceContour img t (fuel + 1) visited (point :: rest) contour =
          (if point ∈ visited then traceContour img t fuel visited rest contour
           else if isEdgeAt img t point then
             traceContour img t fuel (point :: visited)
               (((pixelNeighbors img point).filter
                   (fun q => decide (q ∉ (point :: visited)) &&
                     isEdgeAt img t q)).reverse ++ rest)
               (contour ++ [point])
           else traceContour img t fuel (point :: visited) rest contour) := rfl
      by_cases hmem : point ∈ visited
      · rw [h0, if_pos hmem]
        obtain ⟨new, h2, h1, hnew, hnd, hcl, hsub⟩ := ih visited rest contour
          (fun q hq => hstack q (List.mem_cons_of_mem point hq))
          (fun v hv q hq hnbr => by
            rcases hclosure v hv q hq hnbr with h | h
            · exact Or.inl h
            · rcases List.mem_cons.mp h with h' | h'
              · subst h'
                exact Or.inl hmem
              · exact Or.inr h')
          (by simp only [List.length_cons] at hbudget; omega)
        refine ⟨new, h2, h1, hnew, hnd, hcl, ?_⟩
        intro q hq
        rcases List.mem_cons.mp hq with h' | h'
        · subst h'
          rw [h1]
          exact List.mem_append_right _ hmem
        · exact hsub q h'
      · by_cases hE : isEdgeAt img t point = true
        · rw [h0, if_neg hmem, if_pos hE]
          set nbrs := (pixelNeighbors img point).filter
            (fun q => decide (q ∉ (point :: visited)) && isEdgeAt img t q)
            with hnbrs
          have hpoint := hstack point (List.mem_cons_self point rest)
          have hstack' : ∀ q ∈ nbrs.reverse ++ rest,
              isEdgeAt img t q = true ∧ ReachE img t p q := by
            intro q hq
            rcases List.mem_append.mp hq with h | h
            · rw [List.mem_reverse, hnbrs] at h
              obtain ⟨hq1, hq2⟩ := List.mem_filter.mp h
              rw [Bool.and_eq_true, decide_eq_true_eq] at hq2
              refine ⟨hq2.2, ?_⟩
              exact Relation.ReflTransGen.tail hpoint.2
                ⟨hpoint.1, hq2.2, ((mem_pixelNeighbors img point q).mp hq1).1⟩
            · exact hstack q (List.mem_cons_of_mem point h)
          have hclosure' : ∀ v ∈ point :: visited, ∀ q,
              isEdgeAt img t q = true → q ∈ pixelNeighbors img v →
              q ∈ point :: visited ∨ q ∈ nbrs.reverse ++ rest := by
            intro v hv q hq hnbr
            rcases List.mem_cons.mp hv with hvp | hvv
            · rw [hvp] at hnbr
              by_cases hqv : q ∈ point :: visited
              · exact Or.inl hqv
              · right
                apply List.mem_append_left
                rw [List.mem_reverse, hnbrs]
                apply List.mem_filter.mpr
                refine ⟨hnbr, ?_⟩
                rw [Bool.and_eq_true, decide_eq_true_eq]
                exact ⟨hqv, hq⟩
            · rcases hclosure v hvv q hq hnbr with h | h
              · exact Or.inl (List.mem_cons_of_mem point h)
              · rcases List.mem_cons.mp h with h' | h'
                · subst h'
                  exact Or.inl (List.mem_cons_self q visited)
                · exact Or.inr (List.mem_append_right _ h')
          have hbudget' : (nbrs.reverse ++ rest).length +
              9 * (scanPixels img).countP
                (fun q => decide (q ∉ point :: visited)) ≤ fuel := by
            have hn9 : nbrs.length ≤ 9 :=
              le_trans (List.length_filter_le _ _) (pixelNeighbors_length_le img point)
            have hdrop := countP_unvisited_drop visited point (scanPixels img)
              ((mem_scanPixels img point).mpr (isEdgeAt_valid img t point hE)) hmem
            rw [List.length_append, List.length_reverse]
            simp only [List.length_cons] at hbudget
            omega
          obtain ⟨new', h2, h1, hnew, hnd, hcl, hsub⟩ :=
            ih (point :: visited) (nbrs.reverse ++ rest) (contour ++ [point])
              hstack' hclosure' hbudget'
          refine ⟨point :: new', ?_, ?_, ?_, ?_, hcl, ?_⟩
          · rw [h2, List.append_assoc]
            rfl
          · rw [h1, List.reverse_cons, List.append_assoc]
            rfl
          · intro q hq
            rcases List.mem_cons.mp hq with h' | h'
            · subst h'
              exact ⟨hE, hpoint.2, hmem⟩
            · obtain ⟨he, hr, hnv⟩ := hnew q h'
              exact ⟨he, hr, fun habs => hnv (List.mem_cons_of_mem point habs)⟩
          · refine List.nodup_cons.mpr ⟨?_, hnd⟩
            intro habs
            obtain ⟨_, _, hnv⟩ := hnew point habs
            exact hnv (List.mem_cons_self point visited)
          · intro q hq
            rcases List.mem_cons.mp hq with h' | h'
            · subst h'
              rw [h1]
              exact List.mem_append_right _ (List.mem_cons_self q visited)
            · exact hsub q (List.mem_append_right _ h')
        · exact absurd (hstack point (List.mem_cons_self point rest)).1 hE

/-- One step of the scan loop of `findContours` preserves the loop invariant:
visited pixels are edge pixels and closed under stepping to adjacent edge
pixels; kept contours are duplicate-free, longer than 100, made of visited
edge pixels, pairwise disjoint, and each is exactly one connected region;
every visited pixel's region is either exactly some kept contour or has at
most 100 pixels.  The step also grows the visited set monotonically, visits
the scanned pixel if it is an edge pixel, and keeps all previous contours. -/
theorem contourStep_spec (img : Image) (t : ℚ) (st : List Pix × List (List Pix))
    (p : Pix)
    (hA : ∀ v ∈ st.1, isEdgeAt img t v = true)
    (hB : ∀ v ∈ st.1, ∀ q, isEdgeAt img t q = true →
      q ∈ pixelNeighbors img v → q ∈ st.1)
    (hC : ∀ c ∈ st.2, c.Nodup ∧ 100 < c.length ∧
      ∀ q ∈ c, isEdgeAt img t q = true ∧ q ∈ st.1)
    (hD : st.2.Pairwise (fun c1 c2 => ∀ a ∈ c1, a ∉ c2))
    (hE : ∀ v ∈ st.1, ∃ sp, ReachE img t sp v ∧
      ((∃ c ∈ st.2, ∀ q, q ∈ c ↔ ReachE img t sp q) ∨
       (∀ F : Finset Pix, (∀ q ∈ F, ReachE img t sp q) → F.card ≤ 100))) :
    (∀ v ∈ (contourStep img t st p).1, isEdgeAt img t v = true) ∧
    (∀ v ∈ (contourStep img t st p).1, ∀ q, isEdgeAt img t q = true →
      q ∈ pixelNeighbors img v → q ∈ (contourStep img t st p).1) ∧
    (∀ c ∈ (contourStep img t st p).2, c.Nodup ∧ 100 < c.length ∧
      ∀ q ∈ c, isEdgeAt img t q = true ∧ q ∈ (contourStep img t st p).1) ∧
    (contourStep img t st p).2.Pairwise (fun c1 c2 => ∀ a ∈ c1, a ∉ c2) ∧
    (∀ v ∈ (contourStep img t st p).1, ∃ sp, ReachE img t sp v ∧
      ((∃ c ∈ (contourStep img t st p).2, ∀ q, q ∈ c ↔ ReachE img t sp q) ∨
       (∀ F : Finset Pix, (∀ q ∈ F, ReachE img t sp q) → F.card ≤ 100))) ∧
    (∀ a ∈ st.1, a ∈ (contourStep img t st p).1) ∧
    (isEdgeAt img t p = true → p ∈ (contourStep img t st p).1) ∧
    (∀ c ∈ st.2, c ∈ (contourStep img t st p).2) := by
  have h0 : contourStep img t st p =
      (if p ∉ st.1 ∧ isEdgeAt img t p then
        (if (traceContour img t (9 * (img.width * img.height) + 1)
              st.1 [p] []).2.length > 100 then
          ((traceContour img t (9 * (img.width * img.height) + 1) st.1 [p] []).1,
           st.2 ++ [(traceContour img t
             (9 * (img.width * img.height) + 1) st.1 [p] []).2])
        else
          ((traceContour img t (9 * (img.width * img.height) + 1) st.1 [p] []).1,
           st.2))
      else st) := rfl
  by_cases hcond : p ∉ st.1 ∧ isEdgeAt img t p = true
  · obtain ⟨hp, hEp⟩ := hcond
    have hbudget : ([p] : List Pix).length +
        9 * (scanPixels img).countP (fun q => decide (q ∉ st.1)) ≤
        9 * (img.width * img.height) + 1 := by
      have hle : (scanPixels img).countP (fun q => decide (q ∉ st.1)) ≤
          img.width * img.height := by
        have h1 := List.countP_le_length (l := scanPixels img)
          (p := fun q => decide (q ∉ st.1))
        rw [scanPixels_length, Nat.mul_comm] at h1
        exact h1
      have h9 := Nat.mul_le_mul_left 9 hle
      simp only [List.length_singleton]
      omega
    obtain ⟨new, h2, h1, hnew, hnd, hcl, hsub⟩ :=
      traceContour_spec img t p (9 * (img.width * img.height) + 1) st.1 [p] []
        (fun q hq => by
          rw [List.mem_singleton] at hq
          subst hq
          exact ⟨hEp, Relation.ReflTransGen.refl⟩)
        (fun v hv q hq hnbr => Or.inl (hB v hv q hq hnbr))
        hbudget
    rw [List.nil_append] at h2
    have hpmem : p ∈ (traceContour img t (9 * (img.width * img.height) + 1)
        st.1 [p] []).1 := hsub p (List.mem_singleton.mpr rfl)
    have hmemnew : ∀ q, ReachE img t p q → q ∈ new := by
      intro q hr
      have hqv := closed_reach img t _ hcl hr hpmem
      rw [h1] at hqv
      rcases List.mem_append.mp hqv with h | h
      · exact List.mem_reverse.mp h
      · exact absurd (closed_reach img t st.1 hB (ReachE_symm img t hr) h) hp
    rw [h0, if_pos ⟨hp, hEp⟩]
    by_cases hkeep : (traceContour img t (9 * (img.width * img.height) + 1)
        st.1 [p] []).2.length > 100
    · rw [if_pos hkeep, h2]
      rw [h2] at hkeep
      refine ⟨?_, hcl, ?_, ?_, ?_, ?_, fun _ => hpmem, ?_⟩
      · intro v hv
        rw [h1] at hv
        rcases List.mem_append.mp hv with h | h
        · exact (hnew v (List.mem_reverse.mp h)).1
        · exact hA v h
      · intro c hc
        rcases List.mem_append.mp hc with h | h
        · obtain ⟨hcnd, hclen, hcel⟩ := hC c h
          refine ⟨hcnd, hclen, ?_⟩
          intro q hq
          obtain ⟨hqe, hqv⟩ := hcel q hq
          refine ⟨hqe, ?_⟩
          rw [h1]
          exact List.mem_append_right _ hqv
        · rw [List.mem_singleton] at h
          subst h
          refine ⟨hnd, hkeep, ?_⟩
          intro q hq
          refine ⟨(hnew q hq).1, ?_⟩
          rw [h1]
          exact List.mem_append_left _ (List.mem_reverse.mpr hq)
      · rw [List.pairwise_append]
        refine ⟨hD, List.pairwise_singleton _ _, ?_⟩
        intro c1 hc1 c2 hc2 a ha habs
        rw [List.mem_singleton] at hc2
        subst hc2
        exact (hnew a habs).2.2 ((hC c1 hc1).2.2 a ha).2
      · intro v hv
        rw [h1] at hv
        rcases List.mem_append.mp hv with h | h
        · refine ⟨p, (hnew v (List.mem_reverse.mp h)).2.1, Or.inl ?_⟩
          refine ⟨new, List.mem_append_right _ (List.mem_singleton.mpr rfl), ?_⟩
          intro q
          exact ⟨fun hq => (hnew q hq).2.1, hmemnew q⟩
        · obtain ⟨sp, hr, hdisj⟩ := hE v h
          refine ⟨sp, hr, ?_⟩
          rcases hdisj with ⟨c, hc, hiff⟩ | hsmall
          · exact Or.inl ⟨c, List.mem_append_left _ hc, hiff⟩
          · exact Or.inr hsmall
      · intro a ha
        rw [h1]
        exact List.mem_append_right _ ha
      · intro c hc
        exact List.mem_append_left _ hc
    · rw [if_neg hkeep]
      rw [h2] at hkeep
      refine ⟨?_, hcl, ?_, hD, ?_, ?_, fun _ => hpmem, fun c hc => hc⟩
      · intro v hv
        rw [h1] at hv
        rcases List.mem_append.mp hv with h | h
        · exact (hnew v (List.mem_reverse.mp h)).1
        · exact hA v h
      · intro c hc
        obtain ⟨hcnd, hclen, hcel⟩ := hC c hc
        refine ⟨hcnd, hclen, ?_⟩
        intro q hq
        obtain ⟨hqe, hqv⟩ := hcel q hq
        refine ⟨hqe, ?_⟩
        rw [h1]
        exact List.mem_append_right _ hqv
      · intro v hv
        rw [h1] at hv
        rcases List.mem_append.mp hv with h | h
        · refine ⟨p, (hnew v (List.mem_reverse.mp h)).2.1, Or.inr ?_⟩
          intro F hF
          have hFsub : F ⊆ new.toFinset := by
            intro q hq
            exact List.mem_toFinset.mpr (hmemnew q (hF q hq))
          calc F.card ≤ new.toFinset.card := Finset.card_le_card hFsub
            _ ≤ new.length := List.toFinset_card_le new
            _ ≤ 100 := by omega
        · obtain ⟨sp, hr, hdisj⟩ := hE v h
          exact ⟨sp, hr, hdisj⟩
      · intro a ha
        rw [h1]
        exact List.mem_append_right _ ha
  · rw [h0, if_neg ?hc]
    case hc =>
      intro habs
      exact hcond ⟨habs.1, habs.2⟩
    refine ⟨hA, hB, hC, hD, hE, fun a ha => ha, ?_, fun c hc => hc⟩
    intro hEp
    by_contra hnp
    exact hcond ⟨hnp, hEp⟩

/-- The scan loop of `findContours` preserves the invariant of
`contourStep_spec` along any pixel list and visits every scanned edge
pixel. -/
theorem contourFold_spec (img : Image) (t : ℚ) (l : List Pix) :
    ∀ st : List Pix × List (List Pix),
    (∀ v ∈ st.1, isEdgeAt img t v = true) →
    (∀ v ∈ st.1, ∀ q, isEdgeAt img t q = true →
      q ∈ pixelNeighbors img v → q ∈ st.1) →
    (∀ c ∈ st.2, c.Nodup ∧ 100 < c.length ∧
      ∀ q ∈ c, isEdgeAt img t q = true ∧ q ∈ st.1) →
    st.2.Pairwise (fun c1 c2 => ∀ a ∈ c1, a ∉ c2) →
    (∀ v ∈ st.1, ∃ sp, ReachE img t sp v ∧
      ((∃ c ∈ st.2, ∀ q, q ∈ c ↔ ReachE img t sp q) ∨
       (∀ F : Finset Pix, (∀ q ∈ F, ReachE img t sp q) → F.card ≤ 100))) →
    (∀ v ∈ (l.foldl (contourStep img t) st).1, isEdgeAt img t v = true) ∧
    (∀ v ∈ (l.foldl (contourStep img t) st).1, ∀ q, isEdgeAt img t q = true →
      q ∈ pixelNeighbors img v → q ∈ (l.foldl (contourStep img t) st).1) ∧
    (∀ c ∈ (l.foldl (contourStep img t) st).2, c.Nodup ∧ 100 < c.length ∧
      ∀ q ∈ c, isEdgeAt img t q = true ∧ q ∈ (l.foldl (contourStep img t) st).1) ∧
    (l.foldl (contourStep img t) st).2.Pairwise (fun c1 c2 => ∀ a ∈ c1, a ∉ c2) ∧
    (∀ v ∈ (l.foldl (contourStep img t) st).1, ∃ sp, ReachE img t sp v ∧
      ((∃ c ∈ (l.foldl (contourStep img t) st).2, ∀ q, q ∈ c ↔ ReachE img t sp q) ∨
       (∀ F : Finset Pix, (∀ q ∈ F, ReachE img t sp q) → F.card ≤ 100))) ∧
    (∀ a ∈ st.1, a ∈ (l.foldl (contourStep img t) st).1) ∧
    (∀ p ∈ l, isEdgeAt img t p = true → p ∈ (l.foldl (contourStep img t) st).1) ∧
    (∀ c ∈ st.2, c ∈ (l.foldl (contourStep img t) st).2) := by
  induction l with
  | nil =>
    intro st hA hB hC hD hE
    simp only [List.foldl_nil]
    exact ⟨hA, hB, hC, hD, hE, fun a ha => ha,
      fun p hp => absurd hp (List.not_mem_nil p), fun c hc => hc⟩
  | cons p tl ih =>
    intro st hA hB hC hD hE
    simp only [List.foldl_cons]
    obtain ⟨sA, sB, sC, sD, sE, sG, sP, sK⟩ := contourStep_spec img t st p hA hB hC hD hE
    obtain ⟨fA, fB, fC, fD, fE, fG, fF, fK⟩ := ih (contourStep img t st p) sA sB sC sD sE
    refine ⟨fA, fB, fC, fD, fE, ?_, ?_, ?_⟩
    · exact fun a ha => fG a (sG a ha)
    · intro q hq hqe
      rcases List.mem_cons.mp hq with h | h
      · rw [h] at hqe ⊢
        exact fG p (sP hqe)
      · exact fF q h hqe
    · exact fun c hc => fK c (sK c hc)

/-- `findContours` is the scan fold of `contourStep` (definitional). -/
theorem findContours_eq (edgeImage : Image) (topt : Option ℚ) :
    findContours edgeImage topt = ((scanPixels edgeImage).foldl
      (contourStep edgeImage (topt.getD (calculateAdaptiveThreshold edgeImage)))
      ([], [])).2 := rfl

/-- Soundness of `findContours`: returned contours are pairwise disjoint,
duplicate-free, longer than 100 points, and made of pixels strictly above the
resolved threshold. -/
theorem findContours_props (img : Image) (topt : Option ℚ) :
    (findContours img topt).Pairwise (fun c1 c2 => ∀ a ∈ c1, a ∉ c2) ∧
    (∀ c ∈ findContours img topt, c.Nodup ∧ 100 < c.length ∧
      ∀ q ∈ c, isEdgeAt img (topt.getD (calculateAdaptiveThreshold img)) q = true) := by
  obtain ⟨_, _, hC, hD, _, _, _, _⟩ := contourFold_spec img
    (topt.getD (calculateAdaptiveThreshold img)) (scanPixels img) ([], [])
    (by simp) (by simp) (by simp) (by simp) (by simp)
  rw [findContours_eq]
  exact ⟨hD, fun c hc => ⟨(hC c hc).1, (hC c hc).2.1,
    fun q hq => ((hC c hc).2.2 q hq).1⟩⟩

/-- Completeness of `findContours`: the connected region of any edge pixel
`p` holding more than 100 distinct pixels is returned, exactly, as one of the
contours. -/
theorem findContours_complete (img : Image) (topt : Option ℚ) (p : Pix)
    (F : Finset Pix)
    (hEp : isEdgeAt img (topt.getD (calculateAdaptiveThreshold img)) p = true)
    (hF : ∀ q ∈ F, ReachE img (topt.getD (calculateAdaptiveThreshold img)) p q)
    (hcard : 100 < F.card) :
    ∃ c ∈ findContours img topt, ∀ q, q ∈ c ↔
      ReachE img (topt.getD (calculateAdaptiveThreshold img)) p q := by
  obtain ⟨_, _, _, _, hE5, _, hF7, _⟩ := contourFold_spec img
    (topt.getD (calculateAdaptiveThreshold img)) (scanPixels img) ([], [])
    (by simp) (by simp) (by simp) (by simp) (by simp)
  have hpv := hF7 p ((mem_scanPixels img p).mpr (isEdgeAt_valid _ _ _ hEp)) hEp
  obtain ⟨sp, hr, hdisj⟩ := hE5 p hpv
  rcases hdisj with ⟨c, hc, hiff⟩ | hsmall
  · refine ⟨c, ?_, ?_⟩
    · rw [findContours_eq]
      exact hc
    · intro q
      rw [hiff q]
      constructor
      · intro h
        exact Relation.ReflTransGen.trans (ReachE_symm img _ hr) h
      · intro h
        exact Relation.ReflTransGen.trans hr h
  · exfalso
    have := hsmall F (fun q hq => Relation.ReflTransGen.trans hr (hF q hq))
    omega

/-! ## The horizontal-run images: concrete regions for C9/C10 -/

/-- The pixel value of `runImage n` at the scan index of `(x, y)`. -/
theorem runImage_data (n x y : ℕ) (hx : x < n + 2) :
    (runImage n).data ((y * (n + 2) + x) * 4) =
      if y = 1 ∧ 1 ≤ x ∧ x ≤ n then 255 else 0 := by
  have hm4 : ((y * (n + 2) + x) * 4) % 4 = 0 := Nat.mul_mod_left _ 4
  have hd4 : ((y * (n + 2) + x) * 4) / 4 = y * (n + 2) + x :=
    Nat.mul_div_cancel _ (by norm_num)
  have hdiv : (y * (n + 2) + x) / (n + 2) = y := by
    rw [Nat.mul_comm, Nat.add_comm, Nat.add_mul_div_left x y (by omega : 0 < n + 2),
      Nat.div_eq_of_lt hx, Nat.zero_add]
  have hmod : (y * (n + 2) + x) % (n + 2) = x := by
    rw [Nat.mul_comm, Nat.add_comm, Nat.add_mul_mod_self_left, Nat.mod_eq_of_lt hx]
  show (if ((y * (n + 2) + x) * 4) % 4 = 3 then 255
    else if ((y * (n + 2) + x) * 4) / 4 / (n + 2) = 1 ∧
        1 ≤ ((y * (n + 2) + x) * 4) / 4 % (n + 2) ∧
        ((y * (n + 2) + x) * 4) / 4 % (n + 2) ≤ n then 255 else 0) = _
  rw [hm4, hd4, hdiv, hmod]
  norm_num

/-- The edge pixels of `runImage n` at threshold 10 are exactly the run
`y = 1, 1 ≤ x ≤ n`. -/
theorem runImage_isEdgeAt (n : ℕ) (q : Pix) :
    isEdgeAt (runImage n) 10 q = true ↔ q.2 = 1 ∧ 1 ≤ q.1 ∧ q.1 ≤ n := by
  simp only [isEdgeAt, Bool.and_eq_true, decide_eq_true_eq]
  constructor
  · rintro ⟨⟨hx, _⟩, hgt⟩
    have hx' : q.1 < n + 2 := hx
    rw [show (runImage n).width = n + 2 from rfl,
      runImage_data n q.1 q.2 hx'] at hgt
    by_cases hcnd : q.2 = 1 ∧ 1 ≤ q.1 ∧ q.1 ≤ n
    · exact hcnd
    · rw [if_neg hcnd] at hgt
      norm_num at hgt
  · rintro ⟨h1, h2, h3⟩
    refine ⟨⟨?_, ?_⟩, ?_⟩
    · show q.1 < n + 2
      omega
    · show q.2 < 3
      omega
    · rw [show (runImage n).width = n + 2 from rfl,
        runImage_data n q.1 q.2 (by omega), if_pos ⟨h1, h2, h3⟩]
      norm_num

/-- Every run pixel is reachable from the run's left end. -/
theorem runImage_reach (n : ℕ) :
    ∀ i, 1 ≤ i → i ≤ n → ReachE (runImage n) 10 (1, 1) (i, 1) := by
  intro i
  induction i with
  | zero => intro h1 _; omega
  | succ i ih =>
    intro h1 h2
    rcases Nat.eq_zero_or_pos i with hz | hpos
    · subst hz
      exact Relation.ReflTransGen.refl
    · refine Relation.ReflTransGen.tail (ih hpos (by omega)) ?_
      refine ⟨?_, ?_, ?_, ?_, ?_⟩
      · exact (runImage_isEdgeAt n (i, 1)).mpr ⟨rfl, hpos, by omega⟩
      · exact (runImage_isEdgeAt n (i + 1, 1)).mpr ⟨rfl, by omega, h2⟩
      · intro habs
        have := congrArg Prod.fst habs
        simp only at this
        omega
      · dsimp only
        omega
      · dsimp only
        omega

/-- The run Finset has one element per run pixel. -/
theorem runFinset_card (n : ℕ) :
    ((Finset.range n).image (fun i => ((i + 1 : ℕ), (1 : ℕ)))).card = n := by
  have hinj : Function.Injective (fun i : ℕ => ((i + 1 : ℕ), (1 : ℕ))) := by
    intro a b hab
    have := congrArg Prod.fst hab
    simpa using this
  rw [Finset.card_image_of_injective _ hinj, Finset.card_range]

/-- Every element of the run Finset is reachable from the run's left end. -/
theorem runFinset_reach (n : ℕ) :
    ∀ q ∈ (Finset.range n).image (fun i => ((i + 1 : ℕ), (1 : ℕ))),
      ReachE (runImage n) 10 (1, 1) q := by
  intro q hq
  obtain ⟨i, hi, rfl⟩ := Finset.mem_image.mp hq
  have hilt := Finset.mem_range.mp hi
  exact runImage_reach n (i + 1) (by omega) (by omega)

/-- C9 counterexample: in `runImage 100` the 8-connected above-threshold
region of `(1,1)` at threshold 10 consists of exactly 100 pixels (the run),
yet `findContours` drops it: regions of exactly 100 pixels — "at least 100"
per the claim — are not kept, because the source keeps only contours with
`length > 100` (strictly). -/
theorem findContours_drops_exact_100_pixel_region :
    (∀ q ∈ (Finset.range 100).image (fun i => ((i + 1 : ℕ), (1 : ℕ))),
      ReachE (runImage 100) 10 (1, 1) q) ∧
    ((Finset.range 100).image (fun i => ((i + 1 : ℕ), (1 : ℕ)))).card = 100 ∧
    (∀ q : Pix, isEdgeAt (runImage 100) 10 q = true →
      q ∈ (Finset.range 100).image (fun i => ((i + 1 : ℕ), (1 : ℕ)))) ∧
    findContours (runImage 100) (some 10) = [] := by
  have hedge_mem : ∀ q : Pix, isEdgeAt (runImage 100) 10 q = true →
      q ∈ (Finset.range 100).image (fun i => ((i + 1 : ℕ), (1 : ℕ))) := by
    intro q hq
    obtain ⟨h1, h2, h3⟩ := (runImage_isEdgeAt 100 q).mp hq
    refine Finset.mem_image.mpr ⟨q.1 - 1, Finset.mem_range.mpr (by omega), ?_⟩
    have hq1 : q.1 - 1 + 1 = q.1 := by omega
    rw [hq1]
    exact Prod.ext rfl h1.symm
  refine ⟨runFinset_reach 100, runFinset_card 100, hedge_mem, ?_⟩
  cases hres : findContours (runImage 100) (some 10) with
  | nil => rfl
  | cons c rest =>
    exfalso
    have hc : c ∈ findContours (runImage 100) (some 10) := by
      rw [hres]
      exact List.mem_cons_self c rest
    obtain ⟨_, hprops⟩ := findContours_props (runImage 100) (some 10)
    obtain ⟨hnd, hlen, hedge⟩ := hprops c hc
    have hsub : c.toFinset ⊆
        (Finset.range 100).image (fun i => ((i + 1 : ℕ), (1 : ℕ))) := by
      intro q hq
      have hq' : isEdgeAt (runImage 100) 10 q = true :=
        hedge q (List.mem_toFinset.mp hq)
      exact hedge_mem q hq'
    have hcard : c.toFinset.card ≤ 100 := by
      calc c.toFinset.card
          ≤ ((Finset.range 100).image (fun i => ((i + 1 : ℕ), (1 : ℕ)))).card :=
            Finset.card_le_card hsub
        _ = 100 := runFinset_card 100
    rw [List.toFinset_card_of_nodup hnd] at hcard
    omega

/-- C9 (amended): every 8-connected above-threshold region with **more than**
100 distinct pixels is returned, exactly, as a contour, and every returned
contour has more than 100 points (the source keeps `contour.length > 100`
strictly, so regions of exactly 100 pixels are dropped, see the
counterexample). -/
theorem findContours_keeps_regions_over_100 (img : Image) (topt : Option ℚ)
    (p : Pix) (F : Finset Pix)
    (hEp : isEdgeAt img (topt.getD (calculateAdaptiveThreshold img)) p = true)
    (hF : ∀ q ∈ F, ReachE img (topt.getD (calculateAdaptiveThreshold img)) p q)
    (hcard : 100 < F.card) :
    (∃ c ∈ findContours img topt, ∀ q, q ∈ c ↔
      ReachE img (topt.getD (calculateAdaptiveThreshold img)) p q) ∧
    (∀ c ∈ findContours img topt, 100 < c.length) := by
  refine ⟨findContours_complete img topt p F hEp hF hcard, ?_⟩
  intro c hc
  exact ((findContours_props img topt).2 c hc).2.1

/-- Witness for `findContours_keeps_regions_over_100`: the 101-pixel run of
`runImage 101` at threshold 10 is kept as a contour. -/
theorem findContours_keeps_regions_over_100_witness :
    100 < ((Finset.range 101).image (fun i => ((i + 1 : ℕ), (1 : ℕ)))).card ∧
    (∃ c ∈ findContours (runImage 101) (some 10), ∀ q, q ∈ c ↔
      ReachE (runImage 101)
        ((some (10 : ℚ)).getD (calculateAdaptiveThreshold (runImage 101)))
        (1, 1) q) ∧
    (∀ c ∈ findContours (runImage 101) (some 10), 100 < c.length) := by
  have hEp : isEdgeAt (runImage 101)
      ((some (10 : ℚ)).getD (calculateAdaptiveThreshold (runImage 101)))
      (1, 1) = true :=
    (runImage_isEdgeAt 101 (1, 1)).mpr ⟨rfl, le_refl 1, by omega⟩
  have hF : ∀ q ∈ (Finset.range 101).image (fun i => ((i + 1 : ℕ), (1 : ℕ))),
      ReachE (runImage 101)
        ((some (10 : ℚ)).getD (calculateAdaptiveThreshold (runImage 101)))
        (1, 1) q :=
    runFinset_reach 101
  have hcard : 100 <
      ((Finset.range 101).image (fun i => ((i + 1 : ℕ), (1 : ℕ)))).card := by
    rw [runFinset_card 101]
    omega
  obtain ⟨h1, h2⟩ := findContours_keeps_regions_over_100 (runImage 101)
    (some 10) (1, 1) ((Finset.range 101).image (fun i => ((i + 1 : ℕ), (1 : ℕ))))
    hEp hF hcard
  exact ⟨hcard, h1, h2⟩

/-- C10: the contours returned by `findContours` are pairwise disjoint, free
of internal duplicates, and every point of every contour has an edge-map
value strictly above the threshold used (the explicit one if supplied,
otherwise the adaptive one). -/
theorem findContours_disjoint_nodup_above_threshold (img : Image)
    (topt : Option ℚ) :
    (findContours img topt).Pairwise (fun c1 c2 => ∀ a ∈ c1, a ∉ c2) ∧
    (∀ c ∈ findContours img topt, c.Nodup) ∧
    (∀ c ∈ findContours img topt, ∀ q ∈ c,
      (img.data ((q.2 * img.width + q.1) * 4) : ℚ) >
        topt.getD (calculateAdaptiveThreshold img)) := by
  obtain ⟨hD, hall⟩ := findContours_props img topt
  exact ⟨hD, fun c hc => (hall c hc).1,
    fun c hc q hq => isEdgeAt_gt img _ q ((hall c hc).2.2 q hq)⟩

/-- Witness for `findContours_disjoint_nodup_above_threshold`: on
`runImage 101` at threshold 10 a contour is actually returned, and the
guarantees hold on it with the membership hypotheses discharged. -/
theorem findContours_disjoint_nodup_above_threshold_witness :
    ∃ c ∈ findContours (runImage 101) (some 10), c.Nodup ∧
      ∀ q ∈ c, ((runImage 101).data ((q.2 * (runImage 101).width + q.1) * 4) : ℚ) >
        (some (10 : ℚ)).getD (calculateAdaptiveThreshold (runImage 101)) := by
  have hEp : isEdgeAt (runImage 101)
      ((some (10 : ℚ)).getD (calculateAdaptiveThreshold (runImage 101)))
      (1, 1) = true :=
    (runImage_isEdgeAt 101 (1, 1)).mpr ⟨rfl, le_refl 1, by omega⟩
  have hcard : 100 <
      ((Finset.range 101).image (fun i => ((i + 1 : ℕ), (1 : ℕ)))).card := by
    rw [runFinset_card 101]
    omega
  obtain ⟨c, hc, _⟩ := findContours_complete (runImage 101) (some 10) (1, 1)
    ((Finset.range 101).image (fun i => ((i + 1 : ℕ), (1 : ℕ))))
    hEp (runFinset_reach 101) hcard
  obtain ⟨_, hnd, hgt⟩ :=
    findContours_disjoint_nodup_above_threshold (runImage 101) (some 10)
  exact ⟨c, hc, hnd c hc, hgt c hc⟩

/-! ## C5: the exact angle order used by orderCorners -/

/-- The cross product is antisymmetric. -/
theorem cross2_antisymm (a b : ℚ × ℚ) : cross2 a b = -cross2 b a := by
  simp only [cross2]
  ring

/-- Region 0 of the `atan2` range is exactly the open lower half-plane. -/
theorem angleCls_eq_zero_iff (d : ℚ × ℚ) : angleCls d = 0 ↔ d.2 < 0 := by
  unfold angleCls
  split_ifs with h1 h2 h3
  · simp [h1]
  · norm_num [h2.1]
  · norm_num
    exact not_lt.mp h1
  · norm_num
    exact not_lt.mp h1

/-- Region 2 of the `atan2` range lies in the open upper half-plane. -/
theorem angleCls_two_pos (d : ℚ × ℚ) (h : angleCls d = 2) : 0 < d.2 := by
  unfold angleCls at h
  split_ifs at h with h1 h2 h3
  all_goals try omega
  exact h3

/-- The exact `atan2` comparison is asymmetric. -/
theorem angleLt_asymm (a b : ℚ × ℚ) (h1 : angleLt a b = true)
    (h2 : angleLt b a = true) : False := by
  simp only [angleLt, decide_eq_true_eq] at h1 h2
  rcases h1 with h1 | ⟨he1, _, hc1⟩ <;> rcases h2 with h2 | ⟨he2, _, hc2⟩
  · omega
  · omega
  · omega
  · have := cross2_antisymm a b
    linarith

/-- Within one open half-plane the cross-product comparison is transitive
(in its non-strict form), by the identity
`b.2 * cross a c = c.2 * cross a b + a.2 * cross b c`. -/
theorem cross2_halfplane_trans (a b c : ℚ × ℚ)
    (hsg : (a.2 < 0 ∧ b.2 < 0 ∧ c.2 < 0) ∨ (0 < a.2 ∧ 0 < b.2 ∧ 0 < c.2))
    (hab : 0 ≤ cross2 a b) (hbc : 0 ≤ cross2 b c) : 0 ≤ cross2 a c := by
  have key : b.2 * cross2 a c = c.2 * cross2 a b + a.2 * cross2 b c := by
    simp only [cross2]
    ring
  rcases hsg with ⟨ha, hb, hc⟩ | ⟨ha, hb, hc⟩
  · by_contra hneg
    push_neg at hneg
    have h1 : c.2 * cross2 a b ≤ 0 := mul_nonpos_iff.mpr (Or.inr ⟨hc.le, hab⟩)
    have h2 : a.2 * cross2 b c ≤ 0 := mul_nonpos_iff.mpr (Or.inr ⟨ha.le, hbc⟩)
    have h3 : 0 < b.2 * cross2 a c := mul_pos_of_neg_of_neg hb hneg
    linarith
  · by_contra hneg
    push_neg at hneg
    have h1 : 0 ≤ c.2 * cross2 a b := mul_nonneg hc.le hab
    have h2 : 0 ≤ a.2 * cross2 b c := mul_nonneg ha.le hbc
    have h3 : b.2 * cross2 a c < 0 := mul_neg_of_pos_of_neg hb hneg
    linarith

/-- Negative transitivity of the exact angle comparison: if `c < a` then
either `c < b` or `b < a`. -/
theorem angleLt_cotrans (a b c : ℚ × ℚ) (h : angleLt c a = true) :
    angleLt c b = true ∨ angleLt b a = true := by
  simp only [angleLt, decide_eq_true_eq] at h ⊢
  rcases h with hlt | ⟨heq, hopen, hcross⟩
  · rcases Nat.lt_or_ge (angleCls b) (angleCls a) with hba | hba
    · exact Or.inr (Or.inl hba)
    · exact Or.inl (Or.inl (Nat.lt_of_lt_of_le hlt hba))
  · rcases Nat.lt_trichotomy (angleCls b) (angleCls a) with hb | hb | hb
    · exact Or.inr (Or.inl hb)
    · by_cases hcb : 0 < cross2 c b
      · exact Or.inl (Or.inr ⟨heq.trans hb.symm, hopen, hcb⟩)
      · push_neg at hcb
        refine Or.inr (Or.inr ⟨hb, ?_, ?_⟩)
        · rcases hopen with h0 | h2
          · exact Or.inl (by rw [hb, ← heq]; exact h0)
          · exact Or.inr (by rw [hb, ← heq]; exact h2)
        · by_contra hba
          push_neg at hba
          have hbc' : 0 ≤ cross2 b c := by
            have := cross2_antisymm c b
            linarith
          have hab' : 0 ≤ cross2 a b := by
            have := cross2_antisymm b a
            linarith
          have hsg : (a.2 < 0 ∧ b.2 < 0 ∧ c.2 < 0) ∨
              (0 < a.2 ∧ 0 < b.2 ∧ 0 < c.2) := by
            rcases hopen with h0 | h2
            · left
              refine ⟨?_, ?_, ?_⟩
              · exact (angleCls_eq_zero_iff _).mp (heq ▸ h0)
              · exact (angleCls_eq_zero_iff _).mp (by rw [hb, ← heq]; exact h0)
              · exact (angleCls_eq_zero_iff _).mp h0
            · right
              refine ⟨?_, ?_, ?_⟩
              · exact angleCls_two_pos _ (heq ▸ h2)
              · exact angleCls_two_pos _ (by rw [hb, ← heq]; exact h2)
              · exact angleCls_two_pos _ h2
          have hac := cross2_halfplane_trans a b c hsg hab' hbc'
          have hca := cross2_antisymm c a
          linarith
    · exact Or.inl (Or.inl (by rw [heq]; exact hb))

/-- The non-strict comparator holds exactly when the strict one fails the
other way. -/
theorem angleLe_iff (x y : ℚ × ℚ) :
    angleLe x y = true ↔ ¬ (angleLt y x = true) := by
  unfold angleLe
  cases angleLt y x <;> simp

/-- The sort comparator of `orderCorners` is total. -/
theorem angleRel_total (center : Point) :
    ∀ a b : Point, angleRel center a b ∨ angleRel center b a := by
  intro a b
  unfold angleRel angleLePoint
  rw [angleLe_iff, angleLe_iff]
  by_cases h : angleLt (b.x - center.x, b.y - center.y)
      (a.x - center.x, a.y - center.y) = true
  · right
    intro habs
    exact angleLt_asymm _ _ habs h
  · exact Or.inl h

/-- The sort comparator of `orderCorners` is transitive. -/
theorem angleRel_trans (center : Point) :
    ∀ a b c : Point, angleRel center a b → angleRel center b c →
      angleRel center a c := by
  intro a b c h1 h2
  unfold angleRel angleLePoint at h1 h2 ⊢
  rw [angleLe_iff] at h1 h2 ⊢
  intro hca
  rcases angleLt_cotrans (a.x - center.x, a.y - center.y)
      (b.x - center.x, b.y - center.y)
      (c.x - center.x, c.y - center.y) hca with h | h
  · exact h2 h
  · exact h1 h

/-! ## C5: the top-left rotation of orderCorners -/

/-- Indices 1 ≤ j < n occur in the dropped range scanned by `minSumIdx`. -/
theorem mem_drop_one_range (n j : ℕ) (h1 : 1 ≤ j) (h2 : j < n) :
    j ∈ (List.range n).drop 1 := by
  rcases n with _ | m
  · omega
  · rw [List.range_succ_eq_map]
    show j ∈ List.map Nat.succ (List.range m)
    rw [List.mem_map]
    exact ⟨j - 1, List.mem_range.mpr (by omega), by omega⟩

/-- The fold of `minSumIdx` returns an index of minimal coordinate sum among
the initial index and all scanned indices. -/
theorem minSumFold_min (sorted : List Point) (l : List ℕ) :
    ∀ st : ℕ × ℚ,
    st.2 = (sorted.getD st.1 ⟨0, 0⟩).x + (sorted.getD st.1 ⟨0, 0⟩).y →
    ((l.foldl (fun (st : ℕ × ℚ) i =>
        if (sorted.getD i ⟨0, 0⟩).x + (sorted.getD i ⟨0, 0⟩).y < st.2
        then (i, (sorted.getD i ⟨0, 0⟩).x + (sorted.getD i ⟨0, 0⟩).y)
        else st) st).2 =
      (sorted.getD ((l.foldl (fun (st : ℕ × ℚ) i =>
        if (sorted.getD i ⟨0, 0⟩).x + (sorted.getD i ⟨0, 0⟩).y < st.2
        then (i, (sorted.getD i ⟨0, 0⟩).x + (sorted.getD i ⟨0, 0⟩).y)
        else st) st).1) ⟨0, 0⟩).x +
      (sorted.getD ((l.foldl (fun (st : ℕ × ℚ) i =>
        if (sorted.getD i ⟨0, 0⟩).x + (sorted.getD i ⟨0, 0⟩).y < st.2
        then (i, (sorted.getD i ⟨0, 0⟩).x + (sorted.getD i ⟨0, 0⟩).y)
        else st) st).1) ⟨0, 0⟩).y) ∧
    ((l.foldl (fun (st : ℕ × ℚ) i =>
        if (sorted.getD i ⟨0, 0⟩).x + (sorted.getD i ⟨0, 0⟩).y < st.2
        then (i, (sorted.getD i ⟨0, 0⟩).x + (sorted.getD i ⟨0, 0⟩).y)
        else st) st).2 ≤ st.2) ∧
    (∀ j ∈ l, (l.foldl (fun (st : ℕ × ℚ) i =>
        if (sorted.getD i ⟨0, 0⟩).x + (sorted.getD i ⟨0, 0⟩).y < st.2
        then (i, (sorted.getD i ⟨0, 0⟩).x + (sorted.getD i ⟨0, 0⟩).y)
        else st) st).2 ≤
      (sorted.getD j ⟨0, 0⟩).x + (sorted.getD j ⟨0, 0⟩).y) := by
  induction l with
  | nil =>
    intro st hst
    exact ⟨hst, le_refl _, fun j hj => absurd hj (List.not_mem_nil j)⟩
  | cons i tl ih =>
    intro st hst
    simp only [List.foldl_cons]
    by_cases hc : (sorted.getD i ⟨0, 0⟩).x + (sorted.getD i ⟨0, 0⟩).y < st.2
    · rw [if_pos hc]
      obtain ⟨e1, e2, e3⟩ := ih (i, (sorted.getD i ⟨0, 0⟩).x +
        (sorted.getD i ⟨0, 0⟩).y) rfl
      refine ⟨e1, le_trans e2 hc.le, ?_⟩
      intro j hj
      rcases List.mem_cons.mp hj with h' | h'
      · rw [h']
        exact e2
      · exact e3 j h'
    · rw [if_neg hc]
      push_neg at hc
      obtain ⟨e1, e2, e3⟩ := ih st hst
      refine ⟨e1, e2, ?_⟩
      intro j hj
      rcases List.mem_cons.mp hj with h' | h'
      · rw [h']
        exact le_trans e2 hc
      · exact e3 j h'

/-- The point at the index chosen by `minSumIdx` has the minimal coordinate
sum among all points of the list. -/
theorem minSumIdx_min (sorted : List Point) :
    ∀ pt ∈ sorted,
      (sorted.getD (minSumIdx sorted) ⟨0, 0⟩).x +
        (sorted.getD (minSumIdx sorted) ⟨0, 0⟩).y ≤ pt.x + pt.y := by
  intro pt hpt
  obtain ⟨j, hj, hjval⟩ := List.mem_iff_getElem.mp hpt
  have hgd : sorted.getD j ⟨0, 0⟩ = pt := by
    rw [List.getD_eq_getElem sorted ⟨0, 0⟩ hj]
    exact hjval
  obtain ⟨e1, e2, e3⟩ := minSumFold_min sorted ((List.range sorted.length).drop 1)
    (0, (sorted.getD 0 ⟨0, 0⟩).x + (sorted.getD 0 ⟨0, 0⟩).y) rfl
  have hval : (sorted.getD (minSumIdx sorted) ⟨0, 0⟩).x +
      (sorted.getD (minSumIdx sorted) ⟨0, 0⟩).y =
      (((List.range sorted.length).drop 1).foldl (fun (st : ℕ × ℚ) i =>
        if (sorted.getD i ⟨0, 0⟩).x + (sorted.getD i ⟨0, 0⟩).y < st.2
        then (i, (sorted.getD i ⟨0, 0⟩).x + (sorted.getD i ⟨0, 0⟩).y)
        else st) (0, (sorted.getD 0 ⟨0, 0⟩).x + (sorted.getD 0 ⟨0, 0⟩).y)).2 :=
    e1.symm
  rcases Nat.eq_zero_or_pos j with hz | hpos
  · rw [← hgd, hz]
    rw [hval]
    exact e2
  · rw [← hgd]
    rw [hval]
    exact e3 j (mem_drop_one_range sorted.length j hpos hj)

/-- `orderCorners` on a 4-point list is the rotation of the angle-sorted list
by the first minimal-sum index. -/
theorem orderCorners_eq_rotate (corners : List Point) (h4 : corners.length = 4) :
    minSumIdx (corners.insertionSort (angleRel (centroid4 corners))) < 4 ∧
    orderCorners corners =
      (corners.insertionSort (angleRel (centroid4 corners))).rotate
        (minSumIdx (corners.insertionSort (angleRel (centroid4 corners)))) := by
  have hperm : (corners.insertionSort (angleRel (centroid4 corners))).Perm corners :=
    List.perm_insertionSort _ _
  have hlen : (corners.insertionSort (angleRel (centroid4 corners))).length = 4 :=
    hperm.length_eq.trans h4
  have hne : corners.insertionSort (angleRel (centroid4 corners)) ≠ [] := by
    intro habs
    rw [habs] at hlen
    exact absurd hlen (by simp)
  have ht := minSumIdx_lt _ hne
  rw [hlen] at ht
  refine ⟨ht, ?_⟩
  obtain ⟨a, b, c, d, hs⟩ := list_len4 _ hlen
  have horder : orderCorners corners =
      [(corners.insertionSort (angleRel (centroid4 corners))).getD
         (minSumIdx (corners.insertionSort (angleRel (centroid4 corners)))) ⟨0, 0⟩,
       (corners.insertionSort (angleRel (centroid4 corners))).getD
         ((minSumIdx (corners.insertionSort (angleRel (centroid4 corners))) + 1) % 4) ⟨0, 0⟩,
       (corners.insertionSort (angleRel (centroid4 corners))).getD
         ((minSumIdx (corners.insertionSort (angleRel (centroid4 corners))) + 2) % 4) ⟨0, 0⟩,
       (corners.insertionSort (angleRel (centroid4 corners))).getD
         ((minSumIdx (corners.insertionSort (angleRel (centroid4 corners))) + 3) % 4) ⟨0, 0⟩] :=
    rfl
  rw [horder, hs]
  rw [hs] at ht
  have hcases : minSumIdx ([a, b, c, d] : List Point) = 0 ∨
      minSumIdx ([a, b, c, d] : List Point) = 1 ∨
      minSumIdx ([a, b, c, d] : List Point) = 2 ∨
      minSumIdx ([a, b, c, d] : List Point) = 3 := by omega
  rcases hcases with h | h | h | h <;> rw [h] <;> rfl

/-- `centroid4` as a pair of sums. -/
theorem centroid4_eq (l : List Point) :
    centroid4 l = ⟨(l.map Point.x).sum / 4, (l.map Point.y).sum / 4⟩ := by
  have aux : ∀ (l : List Point) (acc : Point),
      l.foldl (fun acc p => (⟨acc.x + p.x / 4, acc.y + p.y / 4⟩ : Point)) acc =
        ⟨acc.x + (l.map Point.x).sum / 4, acc.y + (l.map Point.y).sum / 4⟩ := by
    intro l
    induction l with
    | nil =>
      intro acc
      simp
    | cons p tl ih =>
      intro acc
      simp only [List.foldl_cons, List.map_cons, List.sum_cons, ih]
      simp only [Point.mk.injEq]
      constructor
      · ring
      · ring
  rw [centroid4, aux]
  simp only [Point.mk.injEq]
  constructor
  · ring
  · ring

/-- `centroid4` only depends on the multiset of points. -/
theorem centroid4_perm (l1 l2 : List Point) (h : l1.Perm l2) :
    centroid4 l1 = centroid4 l2 := by
  rw [centroid4_eq, centroid4_eq, (h.map Point.x).sum_eq, (h.map Point.y).sum_eq]

/-- The selection fold of `detectPage` without any assumption on `minArea`:
any selected quadrilateral comes from some contour and has positive area
(areas are nonnegative and the running maximum starts at 0 with a strict
comparison). -/
theorem detect_foldl_some_area (A : List Point → List Point) (F m : ℚ)
    (cs : List (List Point)) :
    0 ≤ (cs.foldl (detectStep A F m) (none, 0)).2 ∧
    (∀ bq, (cs.foldl (detectStep A F m) (none, 0)).1 = some bq →
      (∃ c ∈ cs, findQuadrilateral A c = some bq) ∧
      0 < calculatePolygonArea bq) := by
  induction cs using List.reverseRecOn with
  | nil =>
    refine ⟨le_refl 0, ?_⟩
    intro bq hbq
    simp at hbq
  | append_singleton cs c ih =>
    obtain ⟨ihpos, ihsome⟩ := ih
    have hfold : ((cs ++ [c]).foldl (detectStep A F m) (none, 0)) =
        detectStep A F m (cs.foldl (detectStep A F m) (none, 0)) c := by
      rw [List.foldl_append, List.foldl_cons, List.foldl_nil]
    rw [hfold]
    rcases hq : findQuadrilateral A c with _ | q
    · have hstep : detectStep A F m (cs.foldl (detectStep A F m) (none, 0)) c =
          cs.foldl (detectStep A F m) (none, 0) := by
        rw [detectStep, hq]
      rw [hstep]
      refine ⟨ihpos, ?_⟩
      intro bq hbq
      obtain ⟨⟨c', hc', hqc'⟩, hpos⟩ := ihsome bq hbq
      exact ⟨⟨c', List.mem_append.mpr (Or.inl hc'), hqc'⟩, hpos⟩
    · have hstep : detectStep A F m (cs.foldl (detectStep A F m) (none, 0)) c =
          (if calculatePolygonArea q / F ≥ m ∧
              calculatePolygonArea q > (cs.foldl (detectStep A F m) (none, 0)).2
           then (some q, calculatePolygonArea q)
           else cs.foldl (detectStep A F m) (none, 0)) := by
        rw [detectStep, hq]
      rw [hstep]
      by_cases hcond : calculatePolygonArea q / F ≥ m ∧
          calculatePolygonArea q > (cs.foldl (detectStep A F m) (none, 0)).2
      · rw [if_pos hcond]
        have hposq : 0 < calculatePolygonArea q := lt_of_le_of_lt ihpos hcond.2
        refine ⟨hposq.le, ?_⟩
        intro bq hbq
        have hbqq : bq = q := by simpa using hbq.symm
        subst hbqq
        exact ⟨⟨c, List.mem_append.mpr (Or.inr (by simp)), hq⟩, hposq⟩
      · rw [if_neg hcond]
        refine ⟨ihpos, ?_⟩
        intro bq hbq
        obtain ⟨⟨c', hc', hqc'⟩, hpos⟩ := ihsome bq hbq
        exact ⟨⟨c', List.mem_append.mpr (Or.inl hc'), hqc'⟩, hpos⟩

/-- C5: the corners of every detection returned by `detectPage` are exactly 4
points; the first has the minimal coordinate sum `x + y` (the "top-left"
rotation), and the whole list is a rotation of a permutation of the corners
sorted by the exact `atan2` angle order around their centroid. -/
theorem detectPage_corners_ordered (approxFn : List Point → List Point)
    (confFn : List Point → ℚ) (now : ℚ) (img : Image)
    (options : PageDetectionOptions) (d : DetectedPage)
    (hd : detectPage approxFn confFn now img options = some d) :
    d.corners.length = 4 ∧
    (∀ pt ∈ d.corners,
      d.corners.headI.x + d.corners.headI.y ≤ pt.x + pt.y) ∧
    (∃ sorted : List Point, ∃ k : ℕ, k < 4 ∧
      sorted.Pairwise (angleRel (centroid4 d.corners)) ∧
      sorted.Perm d.corners ∧ d.corners = sorted.rotate k) := by
  obtain ⟨_, hsome⟩ := detect_foldl_some_area approxFn
    ((img.width : ℚ) * img.height) (resolveOptions options).minArea
    ((findContours (detectEdges img) none).map (List.map (fun p => Point.mk p.1 p.2)))
  have hdp : detectPage approxFn confFn now img options =
      (match (((findContours (detectEdges img) none).map
          (List.map (fun p => Point.mk p.1 p.2))).foldl
          (detectStep approxFn ((img.width : ℚ) * img.height)
            (resolveOptions options).minArea) (none, 0)).1 with
       | none => none
       | some bestQuad =>
         some { corners := orderCorners bestQuad
                confidence := confFn (orderCorners bestQuad)
                frameIndex := 0
                timestamp := now
                qualityScore := 0 }) := rfl
  rcases hb : (((findContours (detectEdges img) none).map
      (List.map (fun p => Point.mk p.1 p.2))).foldl
      (detectStep approxFn ((img.width : ℚ) * img.height)
        (resolveOptions options).minArea) (none, 0)).1 with _ | bq
  · rw [hb] at hdp
    rw [hdp] at hd
    cases hd
  · rw [hb] at hdp
    rw [hdp] at hd
    have hdval : d = { corners := orderCorners bq
                       confidence := confFn (orderCorners bq)
                       frameIndex := 0
                       timestamp := now
                       qualityScore := 0 } := (Option.some.inj hd).symm
    obtain ⟨⟨c', hc', hqc'⟩, hpos⟩ := hsome bq hb
    have h4 : bq.length = 4 := by
      rcases findQuadrilateral_len approxFn c' bq hqc' with h4 | hnil
      · exact h4
      · rw [hnil, calculatePolygonArea_nil] at hpos
        exact absurd hpos (by norm_num)
    obtain ⟨hk4, hrot⟩ := orderCorners_eq_rotate bq h4
    have hsp : (bq.insertionSort (angleRel (centroid4 bq))).Pairwise
        (angleRel (centroid4 bq)) := by
      haveI : IsTotal Point (angleRel (centroid4 bq)) := ⟨angleRel_total (centroid4 bq)⟩
      haveI : IsTrans Point (angleRel (centroid4 bq)) := ⟨angleRel_trans (centroid4 bq)⟩
      exact List.sorted_insertionSort (angleRel (centroid4 bq)) bq
    have hcornperm : (orderCorners bq).Perm bq := orderCorners_perm bq h4
    have hcent : centroid4 (orderCorners bq) = centroid4 bq :=
      centroid4_perm _ _ hcornperm
    have hcorners : d.corners = orderCorners bq := by rw [hdval]
    refine ⟨?_, ?_, ?_⟩
    · rw [hcorners]
      exact hcornperm.length_eq.trans h4
    · rw [hcorners]
      intro pt hpt
      have hhead : (orderCorners bq).headI =
          (bq.insertionSort (angleRel (centroid4 bq))).getD
            (minSumIdx (bq.insertionSort (angleRel (centroid4 bq)))) ⟨0, 0⟩ := rfl
      rw [hhead]
      have hptsorted : pt ∈ bq.insertionSort (angleRel (centroid4 bq)) :=
        (List.perm_insertionSort _ _).mem_iff.mpr (hcornperm.mem_iff.mp hpt)
      exact minSumIdx_min _ pt hptsorted
    · refine ⟨bq.insertionSort (angleRel (centroid4 bq)),
        minSumIdx (bq.insertionSort (angleRel (centroid4 bq))), hk4, ?_, ?_, ?_⟩
      · rw [hcorners, hcent]
        exact hsp
      · rw [hcorners]
        exact (List.perm_insertionSort _ _).trans hcornperm.symm
      · rw [hcorners]
        exact hrot

set_option maxRecDepth 10000 in
/-- The adaptive threshold of the stripe frame's edge map: the 85th
percentile of the edge-map luminance sits at intensity 32, and
`max(30, min(80, 16))` is 30. -/
theorem stripe_threshold :
    calculateAdaptiveThreshold (detectEdges stripeImage) = 30 := by
  have hscan : thresholdScanHit (detectEdges stripeImage) = some 32 := by decide
  rw [calculateAdaptiveThreshold, hscan]
  norm_num [ratMax, ratMin]

set_option maxRecDepth 10000 in
/-- Every interior pixel of the stripe frame's single interior row is above
threshold 30 in the edge map (Sobel magnitude 32, or 255 at the two wrap
columns). -/
theorem stripe_edge_row : ∀ x ∈ List.range 103, 1 ≤ x →
    isEdgeAt (detectEdges stripeImage) 30 (x, 1) = true := by decide

/-- The whole interior row of the stripe frame's edge map is 8-connected to
its left end. -/
theorem stripe_reach : ∀ i, 1 ≤ i → i ≤ 102 →
    ReachE (detectEdges stripeImage) 30 (1, 1) (i, 1) := by
  intro i
  induction i with
  | zero => intro h1 _; omega
  | succ i ih =>
    intro h1 h2
    rcases Nat.eq_zero_or_pos i with hz | hpos
    · subst hz
      exact Relation.ReflTransGen.refl
    · refine Relation.ReflTransGen.tail (ih hpos (by omega)) ?_
      refine ⟨?_, ?_, ?_, ?_, ?_⟩
      · exact stripe_edge_row i (List.mem_range.mpr (by omega)) hpos
      · exact stripe_edge_row (i + 1) (List.mem_range.mpr (by omega)) (by omega)
      · intro habs
        have := congrArg Prod.fst habs
        simp only at this
        omega
      · dsimp only
        omega
      · dsimp only
        omega

/-- The shoelace area of the fixed near-full-frame quadrilateral used by the
constant simplification function below. -/
theorem bigQuad_area :
    calculatePolygonArea
      [Point.mk 0 0, Point.mk 103 0, Point.mk 103 2, Point.mk 0 2] = 206 := by
  have hz : (([Point.mk 0 0, Point.mk 103 0, Point.mk 103 2, Point.mk 0 2]).zip
      (([Point.mk 0 0, Point.mk 103 0, Point.mk 103 2, Point.mk 0 2]).rotate 1)) =
      [(Point.mk 0 0, Point.mk 103 0), (Point.mk 103 0, Point.mk 103 2),
       (Point.mk 103 2, Point.mk 0 2), (Point.mk 0 2, Point.mk 0 0)] := rfl
  rw [calculatePolygonArea, hz]
  simp only [List.map_cons, List.map_nil, List.sum_cons, List.sum_nil]
  norm_num

/-- A constant simplification function short-circuits `findQuadrilateral`. -/
theorem findQuadrilateral_const (q : List Point) (h4 : q.length = 4)
    (contour : List Point) :
    findQuadrilateral (fun _ => q) contour = some q := by
  show (if q.length = 4 then some q
        else if q.length > 4 then some (findBestQuadrilateral q) else none) = some q
  rw [if_pos h4]

/-- `detectPage` as the match on its selection fold (definitional; stated
with symbolic arguments so that instantiating it never evaluates the fold). -/
theorem detectPage_eq (approxFn : List Point → List Point)
    (confFn : List Point → ℚ) (now : ℚ) (img : Image)
    (options : PageDetectionOptions) :
    detectPage approxFn confFn now img options =
      (match (((findContours (detectEdges img) none).map
          (List.map (fun p => Point.mk p.1 p.2))).foldl
          (detectStep approxFn ((img.width : ℚ) * img.height)
            (resolveOptions options).minArea) (none, 0)).1 with
       | none => none
       | some bestQuad =>
         some { corners := orderCorners bestQuad
                confidence := confFn (orderCorners bestQuad)
                frameIndex := 0
                timestamp := now
                qualityScore := 0 }) := rfl

/-- Witness for `detectPage_corners_ordered`: on the stripe frame, with the
Douglas-Peucker stage abstracted by a constant 4-point simplifier,
`detectPage` actually returns a detection, and its corners satisfy the
ordering guarantees. -/
theorem detectPage_corners_ordered_witness :
    ∃ d : DetectedPage,
      detectPage
        (fun _ => [Point.mk 0 0, Point.mk 103 0, Point.mk 103 2, Point.mk 0 2])
        (fun _ => 0) 0 stripeImage {} = some d ∧
      d.corners.length = 4 ∧
      (∀ pt ∈ d.corners,
        d.corners.headI.x + d.corners.headI.y ≤ pt.x + pt.y) ∧
      (∃ sorted : List Point, ∃ k : ℕ, k < 4 ∧
        sorted.Pairwise (angleRel (centroid4 d.corners)) ∧
        sorted.Perm d.corners ∧ d.corners = sorted.rotate k) := by
  have ht30 : (none : Option ℚ).getD
      (calculateAdaptiveThreshold (detectEdges stripeImage)) = 30 := by
    rw [Option.getD_none, stripe_threshold]
  have hEp : isEdgeAt (detectEdges stripeImage)
      ((none : Option ℚ).getD (calculateAdaptiveThreshold (detectEdges stripeImage)))
      (1, 1) = true := by
    rw [ht30]
    exact stripe_edge_row 1 (List.mem_range.mpr (by omega)) (le_refl 1)
  have hF : ∀ q ∈ (Finset.range 102).image (fun i => ((i + 1 : ℕ), (1 : ℕ))),
      ReachE (detectEdges stripeImage)
        ((none : Option ℚ).getD (calculateAdaptiveThreshold (detectEdges stripeImage)))
        (1, 1) q := by
    rw [ht30]
    intro q hq
    obtain ⟨i, hi, rfl⟩ := Finset.mem_image.mp hq
    have hilt := Finset.mem_range.mp hi
    exact stripe_reach (i + 1) (by omega) (by omega)
  have hcard : 100 <
      ((Finset.range 102).image (fun i => ((i + 1 : ℕ), (1 : ℕ)))).card := by
    rw [runFinset_card 102]
    omega
  obtain ⟨c0, hc0, _⟩ := findContours_complete (detectEdges stripeImage) none (1, 1)
    ((Finset.range 102).image (fun i => ((i + 1 : ℕ), (1 : ℕ)))) hEp hF hcard
  have hc0m : c0.map (fun p => Point.mk p.1 p.2) ∈
      (findContours (detectEdges stripeImage) none).map
        (List.map (fun p => Point.mk p.1 p.2)) :=
    List.mem_map_of_mem _ hc0
  have hfa : ((stripeImage.width : ℚ) * stripeImage.height) = 312 := by
    norm_num [stripeImage]
  have hm : (0 : ℚ) < (resolveOptions {}).minArea := by
    norm_num [resolveOptions, DEFAULT_OPTIONS]
  obtain ⟨⟨_, hiff⟩, _⟩ := detect_foldl_spec
    (fun _ => [Point.mk 0 0, Point.mk 103 0, Point.mk 103 2, Point.mk 0 2])
    ((stripeImage.width : ℚ) * stripeImage.height) (resolveOptions {}).minArea hm
    (by rw [hfa]; norm_num)
    ((findContours (detectEdges stripeImage) none).map
      (List.map (fun p => Point.mk p.1 p.2)))
  have hdp := detectPage_eq
    (fun _ => [Point.mk 0 0, Point.mk 103 0, Point.mk 103 2, Point.mk 0 2])
    (fun _ => 0) 0 stripeImage {}
  rcases hb : (((findContours (detectEdges stripeImage) none).map
      (List.map (fun p => Point.mk p.1 p.2))).foldl
      (detectStep
        (fun _ => [Point.mk 0 0, Point.mk 103 0, Point.mk 103 2, Point.mk 0 2])
        ((stripeImage.width : ℚ) * stripeImage.height)
        (resolveOptions {}).minArea) (none, 0)).1 with _ | bq
  · exfalso
    have hneg := hiff.mp hb (c0.map (fun p => Point.mk p.1 p.2)) hc0m
      [Point.mk 0 0, Point.mk 103 0, Point.mk 103 2, Point.mk 0 2]
      (findQuadrilateral_const
        [Point.mk 0 0, Point.mk 103 0, Point.mk 103 2, Point.mk 0 2] rfl
        (c0.map (fun p => Point.mk p.1 p.2)))
    apply hneg
    rw [bigQuad_area, hfa]
    norm_num [resolveOptions, DEFAULT_OPTIONS]
  · rw [hb] at hdp
    exact ⟨_, hdp, detectPage_corners_ordered
      (fun _ => [Point.mk 0 0, Point.mk 103 0, Point.mk 103 2, Point.mk 0 2])
      (fun _ => 0) 0 stripeImage {} _ hdp⟩

/-! ## C1: no fallback when zero pages are detected -/

/-- The checkerboard's edge map is all-zero (the Sobel sums cancel), so its
adaptive threshold is the default 30. -/
theorem checker_threshold :
    calculateAdaptiveThreshold (detectEdges checkerImg) = 30 := by
  have hscan : thresholdScanHit (detectEdges checkerImg) = some 0 := by decide
  rw [calculateAdaptiveThreshold, hscan]
  norm_num [ratMax, ratMin]

/-- No pixel of the checkerboard's edge map exceeds the adaptive threshold:
the 3×3 Sobel sums cancel on the alternating pattern, so the magnitudes are
all 0 < 30. -/
theorem checker_no_edges : ∀ q : Pix,
    isEdgeAt (detectEdges checkerImg)
      ((none : Option ℚ).getD (calculateAdaptiveThreshold (detectEdges checkerImg)))
      q = false := by
  intro q
  have ht : (none : Option ℚ).getD
      (calculateAdaptiveThreshold (detectEdges checkerImg)) = 30 := by
    rw [Option.getD_none, checker_threshold]
  rw [ht]
  by_cases hv : validPix (detectEdges checkerImg) q
  · have hbound : ∀ x ∈ List.range 6, ∀ y ∈ List.range 6,
        isEdgeAt (detectEdges checkerImg) 30 (x, y) = false := by decide
    have hx : q.1 < 6 := hv.1
    have hy : q.2 < 6 := hv.2
    exact hbound q.1 (List.mem_range.mpr hx) q.2 (List.mem_range.mpr hy)
  · unfold isEdgeAt
    rw [decide_eq_false hv, Bool.false_and]

/-- An image with no above-threshold pixel yields no contours: every kept
contour would be longer than 100 points and made of edge pixels. -/
theorem findContours_of_no_edges (img : Image) (topt : Option ℚ)
    (h : ∀ q, isEdgeAt img (topt.getD (calculateAdaptiveThreshold img)) q = false) :
    findContours img topt = [] := by
  cases hres : findContours img topt with
  | nil => rfl
  | cons c rest =>
    exfalso
    have hc : c ∈ findContours img topt := by
      rw [hres]
      exact List.mem_cons_self c rest
    obtain ⟨_, hlen, hedge⟩ := (findContours_props img topt).2 c hc
    rcases c with _ | ⟨q, ctl⟩
    · simp at hlen
    · have := hedge q (List.mem_cons_self q ctl)
      rw [h q] at this
      cases this

/-- On the checkerboard frame `detectPage` finds nothing, whatever the
abstracted simplification and confidence functions and options are. -/
theorem detectPage_checker_none (approxFn : List Point → List Point)
    (confFn : List Point → ℚ) (now : ℚ) (options : PageDetectionOptions) :
    detectPage approxFn confFn now checkerImg options = none := by
  rw [detectPage_eq,
    findContours_of_no_edges (detectEdges checkerImg) none checker_no_edges]
  rfl

/-- If the configured detector never fires, the scanning loop of
`extractPagesFromVideo` keeps its page list empty and returns it as is — no
arm of the loop (and nothing after it in the source) substitutes the sampled
frames. -/
theorem extractPagesLoop_none_detect (detect : Image → Option DetectedPage)
    (isDiff : DetectedPage → DetectedPage → Bool) (frameAt : ℚ → Image)
    (hdet : ∀ t : ℚ, detect (frameAt t) = none)
    (duration intervalSeconds minQualityScore : ℚ) (maxFrames : ℕ) :
    ∀ (fuel : ℕ) (st : ExtractState), st.detectedPages = [] →
      extractPagesLoop detect isDiff frameAt duration intervalSeconds
        minQualityScore maxFrames fuel st = [] := by
  intro fuel
  induction fuel with
  | zero =>
    intro st h
    exact h
  | succ fuel ih =>
    intro st h
    simp only [extractPagesLoop, captureFrameModel, hdet]
    split_ifs with h1 h2
    · exact h
    · exact ih _ h
    · exact h

/-- C1 (code bug): on a video whose every frame is the checkerboard — a video
in which zero pages are detected across all sampled frames — the
page-extraction entry point returns the empty list for every simplification
function, confidence function, option set, page-difference predicate,
duration, interval, quality floor, frame cap and fuel, while the
regularly-sampled quality-filtered frame set of the same video (here with the
scan service's 0.5 s interval and quality floor 30) is nonempty.  The
specified fallback to that frame set does not exist in the code. -/
theorem extractPagesFromVideo_no_fallback (approxFn : List Point → List Point)
    (confFn : List Point → ℚ) (now : ℚ) (options : PageDetectionOptions)
    (isDiff : DetectedPage → DetectedPage → Bool)
    (duration intervalSeconds minQualityScore : ℚ) (maxFrames fuel : ℕ) :
    extractPagesFromVideo
      (fun img => detectPage approxFn confFn now img options) isDiff
      (fun _ => checkerImg) duration intervalSeconds minQualityScore maxFrames
      fuel = [] ∧
    extractFramesWithQuality (fun _ => checkerImg) 1 (1/2) 30 20 true 10 =
      [captureFrameModel (fun _ => none) checkerImg 0 0,
       captureFrameModel (fun _ => none) checkerImg (1/2) 1] ∧
    extractFramesWithQuality (fun _ => checkerImg) 1 (1/2) 30 20 true 10 ≠ [] := by
  have hempty : extractPagesFromVideo
      (fun img => detectPage approxFn confFn now img options) isDiff
      (fun _ => checkerImg) duration intervalSeconds minQualityScore maxFrames
      fuel = [] := by
    rw [extractPagesFromVideo]
    exact extractPagesLoop_none_detect
      (fun img => detectPage approxFn confFn now img options)
      isDiff (fun _ => checkerImg)
      (fun _ => detectPage_checker_none approxFn confFn now options)
      duration intervalSeconds minQualityScore
      maxFrames fuel
      { time := 0, detectedPages := [], lastDetectedPage := none
        lastPageHistogram := none, pageHistograms := [] } rfl
  have h1 : sampleTimes 1 (1/2) 10 0 = 0 :: sampleTimes 1 (1/2) 9 (1/2) := by
    show (if (0 : ℚ) < 1 then
        (0 : ℚ) :: sampleTimes 1 (1/2) 9 (0 + 1/2) else []) = _
    rw [if_pos (by norm_num)]
    norm_num
  have h2 : sampleTimes 1 (1/2) 9 (1/2) = (1/2) :: sampleTimes 1 (1/2) 8 1 := by
    show (if (1/2 : ℚ) < 1 then
        (1/2 : ℚ) :: sampleTimes 1 (1/2) 8 (1/2 + 1/2) else []) = _
    rw [if_pos (by norm_num)]
    norm_num
  have h3 : sampleTimes 1 (1/2) 8 1 = [] := by
    show (if (1 : ℚ) < 1 then
        (1 : ℚ) :: sampleTimes 1 (1/2) 7 (1 + 1/2) else []) = []
    rw [if_neg (by norm_num)]
  have hst : sampleTimes 1 (1/2) 10 0 = [0, 1/2] := by
    rw [h1, h2, h3]
  have hfm : extractFramesModel (fun _ => checkerImg) 1 (1/2) 10 =
      [captureFrameModel (fun _ => none) checkerImg 0 0,
       captureFrameModel (fun _ => none) checkerImg (1/2) 1] := by
    rw [extractFramesModel, hst]
    rfl
  have hq : analyzeFrameQuality checkerImg = 65025 := by
    have hr4 : List.range 4 = [0, 1, 2, 3] := rfl
    simp only [analyzeFrameQuality, checkerImg]
    norm_num [hr4, lumQ]
  have hqs : ∀ ts : ℚ, ∀ ix : ℕ, (decide
      ((captureFrameModel (fun _ => none) checkerImg ts ix).qualityScore ≥ 30)) = true := by
    intro ts ix
    simp only [captureFrameModel, hq]
    norm_num
  have hfilter : ([captureFrameModel (fun _ => none) checkerImg 0 0,
      captureFrameModel (fun _ => none) checkerImg (1/2) 1].filter
        (fun f => decide (f.qualityScore ≥ 30))) =
      [captureFrameModel (fun _ => none) checkerImg 0 0,
       captureFrameModel (fun _ => none) checkerImg (1/2) 1] := by
    simp only [List.filter, hqs]
  have hfq : extractFramesWithQuality (fun _ => checkerImg) 1 (1/2) 30 20 true 10 =
      [captureFrameModel (fun _ => none) checkerImg 0 0,
       captureFrameModel (fun _ => none) checkerImg (1/2) 1] := by
    rw [extractFramesWithQuality]
    rw [if_neg (by simp)]
    rw [hfm, hfilter]
    rw [if_neg (by norm_num)]
  refine ⟨hempty, hfq, ?_⟩
  rw [hfq]
  intro habs
  cases habs

/-! ## C7 and C8: tracker reset and the merger's degenerate groups -/

/-- C7: `reset()` empties both histories, leaves the retained previous frame
(and the options) untouched, and the first motion sample recorded after a
reset is computed against the frame seen before the reset. -/
theorem reset_clears_histories_keeps_previousFrame (s : TrackerState) :
    s.reset.history = [] ∧ s.reset.motionHistory = [] ∧
    s.reset.previousFrame = s.previousFrame ∧
    s.reset.options = s.options ∧
    (∀ (f pf : Image) (det : Option DetectedPage) (now : ℚ),
      s.previousFrame = some pf →
      (s.reset.addDetection det (some f) now).motionHistory =
        [{ motionScore := detectMotion f (some pf) 30
           frameIndex := (det.map (·.frameIndex)).getD 0
           timestamp := now }]) := by
  refine ⟨rfl, rfl, rfl, rfl, ?_⟩
  intro f pf det now hpf
  simp only [TrackerState.addDetection, TrackerState.reset]
  rw [hpf]
  rcases det with _ | d
  · norm_num
  · norm_num

/-- Witness for `reset_clears_histories_keeps_previousFrame` at a concrete
state that has seen a frame. -/
theorem reset_clears_histories_keeps_previousFrame_witness :
    sSeen.reset.history = [] ∧ sSeen.reset.motionHistory = [] ∧
    sSeen.reset.previousFrame = some uniformGray ∧
    (sSeen.reset.addDetection none (some uniformGray) 0).motionHistory =
      [{ motionScore := detectMotion uniformGray (some uniformGray) 30
         frameIndex := 0
         timestamp := 0 }] := by
  obtain ⟨h1, h2, h3, _, h5⟩ := reset_clears_histories_keeps_previousFrame sSeen
  exact ⟨h1, h2, h3, h5 uniformGray uniformGray none 0 rfl⟩

/-- C8: `mergeFrames` on an empty group raises `'No frames to merge'`; on a
single-frame group it returns that frame's pixel data unchanged with
`alignmentSuccess = false` (0 poor regions out of 1), for every grid size,
alignment flag and multi-frame merger. -/
theorem mergeFrames_empty_err_single_passthrough
    (mergeMulti : FrameGroup → ℕ → Bool → MergeResult) (g : FrameGroup)
    (gridSize : ℕ) (enableAlignment : Bool) :
    (g.frames.length = 0 →
      mergeFrames mergeMulti g gridSize enableAlignment =
        .error "No frames to merge") ∧
    (∀ img, g.frames = [img] →
      mergeFrames mergeMulti g gridSize enableAlignment =
        .ok { imageData := img
              metrics := { poorRegions := 0, totalRegions := 1
                           alignmentSuccess := false } }) := by
  constructor
  · intro h
    rw [mergeFrames, if_pos h]
  · intro img h
    rw [mergeFrames, h]
    rw [if_neg (by simp), if_pos (by simp)]
    rfl

/-- Witness for `mergeFrames_empty_err_single_passthrough` on concrete empty
and singleton groups. -/
theorem mergeFrames_empty_err_single_passthrough_witness :
    mergeFrames (fun _ _ _ => ⟨uniformGray, 0, 0, true⟩)
      ⟨1, [], [], [], []⟩ 8 false = .error "No frames to merge" ∧
    mergeFrames (fun _ _ _ => ⟨uniformGray, 0, 0, true⟩)
      ⟨1, [checkerImg], [], [], []⟩ 8 false =
      .ok { imageData := checkerImg
            metrics := { poorRegions := 0, totalRegions := 1
                         alignmentSuccess := false } } := by
  constructor
  · exact (mergeFrames_empty_err_single_passthrough
      (fun _ _ _ => ⟨uniformGray, 0, 0, true⟩) ⟨1, [], [], [], []⟩ 8 false).1 rfl
  · exact (mergeFrames_empty_err_single_passthrough
      (fun _ _ _ => ⟨uniformGray, 0, 0, true⟩)
      ⟨1, [checkerImg], [], [], []⟩ 8 false).2 checkerImg rfl

end VideoScan
